import Mathlib

/-!
Verification of the campus-GPS routing core.

The JavaScript source (src/gps/src/utils/geo.js, src/gps/src/routing/snap.js,
and the LocationWatcher component) is shallowly embedded here:

* JS objects used as string-keyed maps become association lists
  (`ObjMap`); JS object-key iteration order is the list order, and JS
  assignment `o[k] = v` (replace in place if present, append otherwise)
  becomes `objSet`.
* JS numbers are modelled as exact rationals `ℚ`.  `Infinity` is `⊤` in
  `WithTop ℚ`, and a missing property read (JS `undefined`) is `none` in
  `Option (WithTop ℚ)`.
* The trigonometric helpers `haversineMeters` and `toXY`/`xyToLatLng`
  compute real-valued (floating point) functions that have no exact
  rational form; every definition that calls them takes them as explicit
  function parameters (`hav`, `projF`, `unprojF`), and theorems assume
  only the metric-like properties actually used (non-negativity,
  zero-at-equal-points).  All remaining arithmetic is translated exactly.
-/

namespace Gps

/-- A JS object used as a string-keyed map: an association list in
property insertion order. -/
abbrev ObjMap (α : Type) := List (String × α)

/-- Property read `m[k]` : the first binding of `k`, or `none` (JS
`undefined`). -/
def objLookup {α : Type} (m : ObjMap α) (k : String) : Option α :=
  match m with
  | [] => none
  | (k', v) :: rest => if k' = k then some v else objLookup rest k

/-- Property write `m[k] = v`: replace in place when the key exists,
append otherwise (JS object semantics). -/
def objSet {α : Type} (m : ObjMap α) (k : String) (v : α) : ObjMap α :=
  match m with
  | [] => [(k, v)]
  | (k', v') :: rest => if k' = k then (k, v) :: rest else (k', v') :: objSet rest k v

/-- `Object.keys m` in iteration order. -/
def objKeys {α : Type} (m : ObjMap α) : List String :=
  m.map Prod.fst

theorem objLookup_eq_none {α : Type} (m : ObjMap α) (k : String)
    (h : k ∉ objKeys m) : objLookup m k = none := by
  induction m with
  | nil => rfl
  | cons p rest ih =>
    simp only [objKeys, List.map_cons, List.mem_cons, not_or] at h
    simp only [objLookup]
    rw [if_neg (fun he => h.1 he.symm)]
    exact ih (by simpa [objKeys] using h.2)

theorem objLookup_isSome_of_mem {α : Type} (m : ObjMap α) (k : String)
    (h : k ∈ objKeys m) : ∃ v, objLookup m k = some v := by
  induction m with
  | nil => simp [objKeys] at h
  | cons p rest ih =>
    simp only [objLookup]
    by_cases he : p.1 = k
    · exact ⟨p.2, by rw [if_pos he]⟩
    · rw [if_neg he]
      apply ih
      simp only [objKeys, List.map_cons, List.mem_cons] at h
      exact h.resolve_left (fun hk => he hk.symm)

theorem objLookup_mem {α : Type} (m : ObjMap α) (k : String) (v : α)
    (h : objLookup m k = some v) : (k, v) ∈ m := by
  induction m with
  | nil => simp [objLookup] at h
  | cons p rest ih =>
    simp only [objLookup] at h
    by_cases he : p.1 = k
    · rw [if_pos he] at h
      have : p = (k, v) := by
        cases p
        simp_all
      exact this ▸ List.mem_cons_self _ _
    · rw [if_neg he] at h
      exact List.mem_cons_of_mem _ (ih h)

theorem objLookup_of_mem_nodup {α : Type} (m : ObjMap α) (k : String) (v : α)
    (hnd : (objKeys m).Nodup) (h : (k, v) ∈ m) : objLookup m k = some v := by
  induction m with
  | nil => simp at h
  | cons p rest ih =>
    simp only [objKeys, List.map_cons, List.nodup_cons] at hnd
    rcases List.mem_cons.mp h with h1 | h2
    · subst h1
      simp [objLookup]
    · have hk : p.1 ≠ k := by
        intro he
        exact hnd.1 (he ▸ (List.mem_map_of_mem Prod.fst h2))
      simp only [objLookup, if_neg hk]
      exact ih hnd.2 h2

theorem mem_objKeys_of_lookup {α : Type} (m : ObjMap α) (k : String) (v : α)
    (h : objLookup m k = some v) : k ∈ objKeys m :=
  List.mem_map_of_mem Prod.fst (objLookup_mem m k v h)

theorem objLookup_objSet_self {α : Type} (m : ObjMap α) (k : String) (v : α) :
    objLookup (objSet m k v) k = some v := by
  induction m with
  | nil => simp [objSet, objLookup]
  | cons p rest ih =>
    simp only [objSet]
    by_cases he : p.1 = k
    · rw [if_pos he]; simp [objLookup]
    · rw [if_neg he]
      simp only [objLookup, if_neg he]
      exact ih

theorem objLookup_objSet_ne {α : Type} (m : ObjMap α) (k k' : String) (v : α)
    (h : k ≠ k') : objLookup (objSet m k v) k' = objLookup m k' := by
  induction m with
  | nil => simp [objSet, objLookup, if_neg h]
  | cons p rest ih =>
    simp only [objSet]
    by_cases he : p.1 = k
    · rw [if_pos he]
      simp only [objLookup, if_neg h, if_neg (he ▸ h)]
    · rw [if_neg he]
      simp only [objLookup]
      by_cases he2 : p.1 = k'
      · rw [if_pos he2, if_pos he2]
      · rw [if_neg he2, if_neg he2]
        exact ih

/-- A geographic coordinate `{lat, lng}` in degrees, with JS numbers
modelled as exact rationals. -/
structure Coord where
  lat : ℚ
  lng : ℚ
deriving DecidableEq, Repr

/-! ## pointInPolygon (src/gps/src/utils/geo.js, lines 22–33)

Ray casting over the closed vertex list `[[lat, lng], ...]`.  The JS
loop visits index pairs `(i, j)` with `j` the predecessor of `i`
(wrapping, so the first pair is `(0, n-1)`). -/

/-- One ray-casting test of the JS loop body: vertices `(lati, lngi)`
and `(latj, lngj)`, query point `(lat, lng)`. -/
def pipIntersect (lat lng lati lngi latj lngj : ℚ) : Bool :=
  (decide (lngi > lng) != decide (lngj > lng)) &&
    decide (lat < (latj - lati) * (lng - lngi) / (lngj - lngi + 1/1000000000000) + lati)

/-- The `(i, j)` index pairs of the ray-casting loop, as vertex pairs. -/
def pipPairs (polygon : List (ℚ × ℚ)) : List ((ℚ × ℚ) × (ℚ × ℚ)) :=
  match polygon with
  | [] => []
  | p :: rest => (p :: rest).zip (((p :: rest).getLast (by simp)) :: (p :: rest).dropLast)

/-- `pointInPolygon` (geo.js lines 22–33). -/
def pointInPolygon (point : Coord) (polygon : List (ℚ × ℚ)) : Bool :=
  (pipPairs polygon).foldl
    (fun inside pij =>
      if pipIntersect point.lat point.lng pij.1.1 pij.1.2 pij.2.1 pij.2.2 then !inside
      else inside)
    false

/-! ## Dijkstra (src/gps/src/utils/geo.js, lines 35–64)

`edges : { A: {B: w, ...}, ... }`.  Tentative distances live in
`Option (WithTop ℚ)`: `none` is a property that was never written (JS
`undefined`, for which every `<` comparison is false), `some ⊤` is
`Infinity`, and `some (q : ℚ)` is a finite number. -/

abbrev Graph := ObjMap (ObjMap ℚ)

/-- Weight of the directed adjacency entry `edges[u][v]`. -/
def edgeWeight (g : Graph) (u v : String) : Option ℚ :=
  (objLookup g u).bind (fun adj => objLookup adj v)

/-- The JS graphs quantified over are objects: outer and inner key lists
have no duplicates. -/
def WellFormed (g : Graph) : Prop :=
  (objKeys g).Nodup ∧ ∀ p ∈ g, (objKeys p.2).Nodup

/-- All edge weights are non-negative. -/
def Nonneg (g : Graph) : Prop :=
  ∀ u v w, edgeWeight g u v = some w → 0 ≤ w

/-- The state of the Dijkstra main loop. -/
structure DState where
  dist : String → Option (WithTop ℚ)
  prev : String → Option String
  visited : List String
  pq : List String

/-- The linear minimum scan
`let u = null, best = Infinity; for (const n of pq) if (dist[n] < best) ...`:
first strict minimum; a `none` (`undefined`) distance never compares
below `best`. -/
def findMin (dist : String → Option (WithTop ℚ)) :
    List String → Option String → WithTop ℚ → Option String
  | [], u, _ => u
  | n :: rest, u, best =>
    match dist n with
    | some d => if d < best then findMin dist rest (some n) d else findMin dist rest u best
    | none => findMin dist rest u best

/-- The relaxation loop
`for (const [v, w] of Object.entries(edges[u] || {}))`.  `du` is
`dist[u]` (kept in `WithTop ℚ` so that an `Infinity` source faithfully
never relaxes anything); a visited `v` is skipped; `alt < dist[v]` is
false when `dist[v]` is `undefined`. -/
def relax (u : String) (du : WithTop ℚ) (visited : List String) :
    List (String × ℚ) → (String → Option (WithTop ℚ)) → (String → Option String) →
    (String → Option (WithTop ℚ)) × (String → Option String)
  | [], dist, prev => (dist, prev)
  | (v, w) :: rest, dist, prev =>
    if v ∈ visited then relax u du visited rest dist prev
    else
      match dist v with
      | some dv =>
        if du + (w : WithTop ℚ) < dv then
          relax u du visited rest
            (fun n => if n = v then some (du + (w : WithTop ℚ)) else dist n)
            (fun n => if n = v then some u else prev n)
        else relax u du visited rest dist prev
      | none => relax u du visited rest dist prev

/-- The `while (pq.size)` loop.  The fuel argument only bounds the
iteration count; each iteration removes one pq element, so fuel equal to
the initial pq length always suffices (proved where needed). -/
def dijkstraLoop (g : Graph) (goal : String) : Nat → DState → DState
  | 0, st => st
  | fuel + 1, st =>
    if st.pq.isEmpty then st
    else
      match findMin st.dist st.pq none ⊤ with
      | none => st
      | some u =>
        let pq' := st.pq.erase u
        if u = goal then { st with pq := pq' }
        else
          let adj := (objLookup g u).getD []
          match st.dist u with
          | some du =>
            let dp := relax u du st.visited adj st.dist st.prev
            dijkstraLoop g goal fuel
              { dist := dp.1, prev := dp.2, visited := st.visited ++ [u], pq := pq' }
          | none =>
            dijkstraLoop g goal fuel { st with visited := st.visited ++ [u], pq := pq' }

/-- JS truthiness of `prev[goal]`: `undefined` and the empty string are
the falsy cases (`!prev[goal]`). -/
def prevFalsy (p : Option String) : Bool :=
  match p with
  | none => true
  | some s => s = ""

/-- The reconstruction loop
`while (cur !== start) { cur = prev[cur]; path.push(cur); }`.
A missing predecessor makes the JS loop run forever (`cur` becomes
`undefined` and never equals `start`); that divergence is `none`, as is
fuel exhaustion. -/
def recon (prev : String → Option String) (start : String) :
    Nat → String → List String → Option (List String)
  | fuel, cur, acc =>
    if cur = start then some acc
    else
      match fuel with
      | 0 => none
      | fuel + 1 =>
        match prev cur with
        | some c => recon prev start fuel c (acc ++ [c])
        | none => none

/-- Result record of `dijkstra`: `{ path, distance }`. -/
structure DijkstraResult where
  path : List String
  distance : Option (WithTop ℚ)
deriving DecidableEq, Repr

/-- `dijkstra(edges, start, goal)` (geo.js lines 35–64).  `none` models
a run of the JS function that never returns (the reconstruction loop
diverging on a broken predecessor chain); the theorems below show this
does not happen. -/
def dijkstra (g : Graph) (start goal : String) : Option DijkstraResult :=
  let keys := objKeys g
  let dist0 : String → Option (WithTop ℚ) := fun n =>
    if n = start then some 0 else if n ∈ keys then some ⊤ else none
  let st0 : DState := ⟨dist0, fun _ => none, [], keys⟩
  let st := dijkstraLoop g goal keys.length st0
  if prevFalsy (st.prev goal) ∧ start ≠ goal then
    some ⟨[], some ⊤⟩
  else
    match recon st.prev start (keys.length + 1) goal [goal] with
    | some p => some ⟨p.reverse, st.dist goal⟩
    | none => none

/-! ## Specification vocabulary for the path solver -/

/-- The adjacency list the relaxation loop iterates:
`Object.entries(edges[u] || {})`. -/
def adjOf (g : Graph) (u : String) : List (String × ℚ) :=
  (objLookup g u).getD []

/-- `v` is reachable from `s` along directed adjacency entries of `g`. -/
inductive ReachableP (g : Graph) (s : String) : String → Prop
  | refl : ReachableP g s s
  | step {u v : String} {w : ℚ} :
      ReachableP g s u → edgeWeight g u v = some w → ReachableP g s v

/-- `l` is the stored predecessor chain from `start` to `v`: it starts
at `start`, ends at `v`, and each element is the recorded predecessor of
the next. -/
inductive PathTo (prev : String → Option String) (start : String) : String → List String → Prop
  | single : PathTo prev start start [start]
  | snoc {u v : String} {l : List String} :
      PathTo prev start u l → prev v = some u → PathTo prev start v (l ++ [v])

/-- Sum of the weights of the consecutive edges along a node sequence;
`none` when some consecutive pair is not an adjacency entry. -/
def pathWeight (g : Graph) : List String → Option ℚ
  | [] => some 0
  | [_] => some 0
  | a :: b :: rest =>
    (edgeWeight g a b).bind (fun w => (pathWeight g (b :: rest)).map (fun q => w + q))

/-- The inductive invariant of the Dijkstra main loop. -/
structure LoopInv (g : Graph) (start : String) (st : DState) : Prop where
  pq_sub : ∀ n ∈ st.pq, n ∈ objKeys g
  pq_nodup : st.pq.Nodup
  vis_sub : ∀ n ∈ st.visited, n ∈ objKeys g
  disj : ∀ n ∈ st.visited, n ∉ st.pq
  dist_start : st.dist start = some 0
  dist_keys : ∀ n ∈ objKeys g, ∃ d, st.dist n = some d
  dist_dom : ∀ n d, st.dist n = some d → n ∈ objKeys g ∨ n = start
  dist_nonneg : ∀ n d, st.dist n = some d → 0 ≤ d
  prev_start : st.prev start = none
  prev_vis : ∀ v u, st.prev v = some u → u ∈ st.visited
  prev_edge : ∀ v u, st.prev v = some u → ∃ w du, edgeWeight g u v = some w ∧
      st.dist u = some ((du : ℚ) : WithTop ℚ) ∧
      st.dist v = some (((du + w : ℚ)) : WithTop ℚ)
  prev_of_finite : ∀ v, v ≠ start → ∀ q : ℚ,
      st.dist v = some ((q : ℚ) : WithTop ℚ) → ∃ u, st.prev v = some u
  chain : ∀ v ∈ st.visited, ∃ l, l.Nodup ∧ (∀ x ∈ l, x ∈ st.visited) ∧
      PathTo st.prev start v l
  vis_min : ∀ v ∈ st.visited, ∃ dv : ℚ, st.dist v = some ((dv : ℚ) : WithTop ℚ) ∧
      ∀ n ∈ st.pq, ∀ dn, st.dist n = some dn → ((dv : ℚ) : WithTop ℚ) ≤ dn
  relaxed : ∀ u ∈ st.visited, ∀ du : ℚ, st.dist u = some ((du : ℚ) : WithTop ℚ) →
      ∀ vw ∈ adjOf g u, vw.1 ∈ objKeys g ∨ vw.1 = start →
      ∃ dv, st.dist vw.1 = some dv ∧ dv ≤ ((du + vw.2 : ℚ) : WithTop ℚ)

/-- Every graph key is still tracked: in the queue or settled.  (Broken
only at the instant the loop pops the goal and exits.) -/
def KeysCovered (g : Graph) (st : DState) : Prop :=
  ∀ v ∈ objKeys g, v ∈ st.pq ∨ v ∈ st.visited

/-! ## Snapping (src/gps/src/routing/snap.js)

`toXY`/`xyToLatLng` (equirectangular projection) and `haversineMeters`
use trigonometric functions; they appear as the function parameters
`projF : lat → lng → refLat → (x, y)`, `unprojF : x → y → refLat → Coord`
and `hav`.  Everything else is exact. -/

/-- `projectPointToSegment` (snap.js lines 4–11): clamp the projection
parameter of `p` onto segment `ab` to `[0,1]`.  `ab2 || 1e-9` guards a
zero-length segment. -/
def projectPointToSegment (p a b : ℚ × ℚ) : ℚ × ℚ × ℚ :=
  let APx := p.1 - a.1
  let APy := p.2 - a.2
  let ABx := b.1 - a.1
  let ABy := b.2 - a.2
  let ab2 := ABx * ABx + ABy * ABy
  let ab2 := if ab2 = 0 then 1 / 1000000000 else ab2
  let t := (APx * ABx + APy * ABy) / ab2
  let t := max 0 (min 1 t)
  (a.1 + t * ABx, a.2 + t * ABy, t)

/-- A snap onto an edge: `{type:'virtual', nodeId, coord, attach:{a,b}}`.
The `nodeId` is the freshly generated string
`` `VIRTUAL_${Date.now()}_${Math.random()...}` ``; the generator is
nondeterministic, so the id arrives as a parameter (`freshId`). -/
structure VirtualSnap where
  nodeId : String
  coord : Coord
  a : String
  b : String
deriving DecidableEq, Repr

/-- Result of `snapToGraph`: an existing node (whose id is `null` when
the node table is empty — JS `bestNode` stays `null`) or a virtual
edge attachment. -/
inductive SnapResult
  | node (nodeId : Option String) (coord : Option Coord)
  | virt (v : VirtualSnap)
deriving DecidableEq, Repr

/-- The nearest-node scan (snap.js lines 17–21):
`bestNode = null, bestNodeDist = Infinity; if (d < bestNodeDist) ...` —
first strict minimum in iteration order. -/
def bestNodeLoop (hav : Coord → Coord → ℚ) (coord : Coord) :
    ObjMap Coord → Option String → WithTop ℚ → Option String × WithTop ℚ
  | [], bn, bd => (bn, bd)
  | (id, n) :: rest, bn, bd =>
    if (hav coord n : WithTop ℚ) < bd then bestNodeLoop hav coord rest (some id) (hav coord n)
    else bestNodeLoop hav coord rest bn bd

/-- The running best edge of the edge scan:
`{a, b, coord: projCoord, dist}` (the raw projection components are not
read downstream and are not stored). -/
structure BestEdge where
  a : String
  b : String
  coord : Coord
  dist : ℚ
deriving DecidableEq, Repr

/-- Inner loop of the edge scan (snap.js lines 30–42): for each
neighbour key `b` of row `a`, skip `a >= b` (each undirected edge once)
and rows with a missing endpoint; otherwise project and keep the first
strict minimum of the geodesic distance to the projected point. -/
def bestEdgeInner (hav : Coord → Coord → ℚ) (projF : ℚ → ℚ → ℚ → ℚ × ℚ)
    (unprojF : ℚ → ℚ → ℚ → Coord) (coord : Coord) (pXY : ℚ × ℚ) (refLat : ℚ)
    (nodes : ObjMap Coord) (a : String) :
    List String → Option BestEdge → Option BestEdge
  | [], be => be
  | b :: rest, be =>
    if b ≤ a then bestEdgeInner hav projF unprojF coord pXY refLat nodes a rest be
    else
      match objLookup nodes a, objLookup nodes b with
      | some na, some nb =>
        let aXY := projF na.lat na.lng refLat
        let bXY := projF nb.lat nb.lng refLat
        let pr := projectPointToSegment pXY aXY bXY
        let projCoord := unprojF pr.1 pr.2.1 refLat
        let d := hav coord projCoord
        if (match be with | none => true | some e => decide (d < e.dist)) then
          bestEdgeInner hav projF unprojF coord pXY refLat nodes a rest (some ⟨a, b, projCoord, d⟩)
        else bestEdgeInner hav projF unprojF coord pXY refLat nodes a rest be
      | _, _ => bestEdgeInner hav projF unprojF coord pXY refLat nodes a rest be

/-- Outer loop of the edge scan (snap.js line 29). -/
def bestEdgeOuter (hav : Coord → Coord → ℚ) (projF : ℚ → ℚ → ℚ → ℚ × ℚ)
    (unprojF : ℚ → ℚ → ℚ → Coord) (coord : Coord) (pXY : ℚ × ℚ) (refLat : ℚ)
    (nodes : ObjMap Coord) :
    Graph → Option BestEdge → Option BestEdge
  | [], be => be
  | (a, list) :: rest, be =>
    bestEdgeOuter hav projF unprojF coord pXY refLat nodes rest
      (bestEdgeInner hav projF unprojF coord pXY refLat nodes a (objKeys list) be)

/-- `snapToGraph(coord, nodes, edges)` (snap.js lines 15–56).  The edge
attachment wins exactly when `bestEdge.dist + 0.1 < bestNodeDist`. -/
def snapToGraph (hav : Coord → Coord → ℚ) (projF : ℚ → ℚ → ℚ → ℚ × ℚ)
    (unprojF : ℚ → ℚ → ℚ → Coord) (freshId : String) (coord : Coord)
    (nodes : ObjMap Coord) (edges : Graph) : SnapResult :=
  let bn := bestNodeLoop hav coord nodes none ⊤
  let refLat := coord.lat
  let pXY := projF coord.lat coord.lng refLat
  let be := bestEdgeOuter hav projF unprojF coord pXY refLat nodes edges none
  match be with
  | some e =>
    if ((e.dist + 1 / 10 : ℚ) : WithTop ℚ) < bn.2 then
      SnapResult.virt ⟨freshId, e.coord, e.a, e.b⟩
    else SnapResult.node bn.1 (bn.1.bind (objLookup nodes))
  | none => SnapResult.node bn.1 (bn.1.bind (objLookup nodes))

/-! ## Route computation (src/gps/src/utils/geo.js, lines 72–137) -/

/-- The module-level tables imported by the route computation. -/
structure RouteParams where
  nodes : ObjMap Coord
  edges : Graph
  buildingPolygons : ObjMap (List (ℚ × ℚ))
  buildingEntrance : ObjMap String
  buildingExit : ObjMap String

/-- `withVirtualNode(baseEdges, virtual)` (geo.js lines 72–86): deep-copy
the base adjacency object, add the virtual node's row
`{[a]: dA, [b]: dB}`, and extend the rows of `a` and `b` with the
back-edges.  When `nodes[a]` or `nodes[b]` is missing the JS code would
produce `NaN` edge weights (no exact rational exists); that case is
`none`. -/
def withVirtualNode (hav : Coord → Coord → ℚ) (nodes : ObjMap Coord) (base : Graph)
    (virt : Option VirtualSnap) : Option Graph :=
  match virt with
  | none => some base
  | some v =>
    match objLookup nodes v.a, objLookup nodes v.b with
    | some na, some nb =>
      let dA := hav v.coord na
      let dB := hav v.coord nb
      let g1 := objSet base v.nodeId (objSet (objSet [] v.a dA) v.b dB)
      let g2 := objSet g1 v.a (objSet ((objLookup g1 v.a).getD []) v.nodeId dA)
      let g3 := objSet g2 v.b (objSet ((objLookup g2 v.b).getD []) v.nodeId dB)
      some g3
    | _, _ => none

/-- The `for (const [bid, poly] of Object.entries(buildingPolygons))`
loop (geo.js lines 95–97): first polygon containing the point, in
iteration order. -/
def findInside (polys : ObjMap (List (ℚ × ℚ))) (c : Coord) : Option String :=
  match polys with
  | [] => none
  | (bid, poly) :: rest => if pointInPolygon c poly then some bid else findInside rest c

/-- Origin resolution (geo.js lines 90–111).  When the user is inside a
building whose exit table has no entry, JS leaves `originNodeId`
`undefined`; when the node table is empty the snap result carries
`nodeId: null`.  Both are subsequently used only as object keys, where
they read as the string keys `"undefined"` / `"null"`; the theorems
below only quantify over graphs without such keys. -/
structure OriginRes where
  originNodeId : String
  virt : Option VirtualSnap
  insideBuildingId : Option String
deriving DecidableEq, Repr

/-- JS truthiness of the `insideBuildingId` string-or-null variable:
only `null` and `""` are falsy. -/
def strTruthy (o : Option String) : Bool :=
  match o with
  | none => false
  | some s => decide (s ≠ "")

/-- Steps 1 of `computeRoute` (geo.js lines 90–111).  The branch test
`if (insideBuildingId)` is JS truthiness: both `null` (no polygon
matched) and an empty-string building id take the snap branch, while
`insideBuildingId` keeps its found value either way. -/
def resolveOrigin (P : RouteParams) (snapFn : Coord → SnapResult) (userCoord : Coord) :
    OriginRes :=
  let inside := findInside P.buildingPolygons userCoord
  if strTruthy inside then
    ⟨(objLookup P.buildingExit (inside.getD "")).getD "undefined", none, inside⟩
  else
    match snapFn userCoord with
    | SnapResult.node nid _ => ⟨nid.getD "null", none, inside⟩
    | SnapResult.virt v => ⟨v.nodeId, some v, inside⟩

/-- `Math.round`: round half toward `+∞`; `Infinity` stays `Infinity`;
`undefined` rounds to `NaN` (modelled `none`). -/
def jsRound (x : Option (WithTop ℚ)) : Option (WithTop ℤ) :=
  match x with
  | none => none
  | some t => t.recTopCoe (some ⊤) (fun q => some ((Int.floor (q + 1 / 2) : ℤ) : WithTop ℤ))

/-- Polyline assembly (geo.js line 125):
`path.map(id => id.startsWith("VIRTUAL") ? virtual.coord : nodes[id])`.
A `VIRTUAL`-prefixed id with no virtual snap in scope is a JS
`TypeError` (`none`); a missing node id yields an `undefined` polyline
entry (`none` inside the list). -/
def polylineOf (nodes : ObjMap Coord) (virt : Option VirtualSnap) :
    List String → Option (List (Option Coord))
  | [] => some []
  | id :: rest =>
    if id.startsWith "VIRTUAL" then
      match virt with
      | some v => (polylineOf nodes virt rest).map (fun tl => some v.coord :: tl)
      | none => none
    else (polylineOf nodes virt rest).map (fun tl => objLookup nodes id :: tl)

/-- The success record of `computeRoute` (geo.js lines 127–136). -/
structure RouteOk where
  pathNodeIds : List String
  distanceMeters : Option (WithTop ℤ)
  polyline : List (Option Coord)
  startedInsideBuilding : Bool
  startBuilding : Option String
  originNodeId : String
  destNodeId : String
deriving DecidableEq, Repr

/-- Tagged result of `computeRoute`: `{ok: true, ...}` or
`{ok: false, error}`. -/
inductive RouteResult
  | ok (r : RouteOk)
  | err (msg : String)
deriving DecidableEq, Repr

/-- `computeRoute({userCoord, destBuildingId})` (geo.js lines 88–137).
`snapFn` stands for the call `snapToGraph(userCoord, nodes, edges)`
(whose fresh virtual id is nondeterministic), `hav` for
`haversineMeters`.  An overall `none` is a run that the JS code cannot
complete normally (dijkstra divergence or the polyline `TypeError`);
the JS `if (!destNodeId)` check fails both for a missing entrance and
for an empty-string entrance id. -/
def computeRoute (hav : Coord → Coord → ℚ) (P : RouteParams) (snapFn : Coord → SnapResult)
    (userCoord : Coord) (destBuildingId : String) : Option RouteResult :=
  let o := resolveOrigin P snapFn userCoord
  match objLookup P.buildingEntrance destBuildingId with
  | none => some (RouteResult.err ("No entrance node for " ++ destBuildingId))
  | some destNodeId =>
    if destNodeId = "" then some (RouteResult.err ("No entrance node for " ++ destBuildingId))
    else
      match withVirtualNode hav P.nodes P.edges o.virt with
      | none => none
      | some g =>
        match dijkstra g o.originNodeId destNodeId with
        | none => none
        | some r =>
          if r.path.isEmpty then some (RouteResult.err "No path found")
          else
            match polylineOf P.nodes o.virt r.path with
            | none => none
            | some coords =>
              some (RouteResult.ok
                { pathNodeIds := r.path
                  distanceMeters := jsRound r.distance
                  polyline := coords
                  startedInsideBuilding := strTruthy o.insideBuildingId
                  startBuilding := if strTruthy o.insideBuildingId then o.insideBuildingId else none
                  originNodeId := o.originNodeId
                  destNodeId := destNodeId })

/-! ## The live-position filter (LocationWatcher / LocationMapper)

`onSuccess` (LocationWatcher.jsx lines 61–100).  The geodesic helper
`distMeters` is trigonometric and arrives as the parameter `dist`.

The component keeps the smoothed position in React state `pos`, the last
accepted raw fix in a ref.  The `onSuccess` callback is created inside a
`useEffect` whose dependency list is `[accuracyMax, staleMs, ema,
jumpGuard]`, so for a session with constant props the callback is
created exactly once and its captured `pos` is the value of that state
at mount time — `null` — for the whole session, while the rendered
state advances via `setPos`.  The captured value is the explicit
`posClosure` parameter below; the per-session semantics fixes it to
`none`. -/

/-- Watcher configuration props with their defaults
(`accuracyMax = 60`, `staleMs = 8000`, `ema = 0.25`, `jumpGuard = 8`). -/
structure WatchCfg where
  accuracyMax : ℚ
  staleMs : ℚ
  ema : ℚ
  jumpGuard : ℚ
deriving DecidableEq, Repr

/-- The default props of `LocationWatcher`. -/
def defaultWatchCfg : WatchCfg := ⟨60, 8000, 1 / 4, 8⟩

/-- Mutable component state read/written by `onSuccess`: `pos` (smoothed
position state), `acc` (accuracy state), `lastRaw` (ref holding the last
accepted raw fix and its timestamp). -/
structure WatchState where
  pos : Option Coord
  acc : Option ℚ
  lastRaw : Option (Coord × ℚ)
deriving DecidableEq, Repr

/-- Fresh-mount state: `useState(null)` twice and a `null` ref. -/
def initialWatchState : WatchState := ⟨none, none, none⟩

/-- One geolocation fix: `ll = [lat, lng]`,
`a = p.coords.accuracy ?? null`, `t` its timestamp, `now` the value of
`Date.now()` while the callback runs. -/
structure FixSample where
  ll : Coord
  accuracy : Option ℚ
  t : ℚ
  now : ℚ
deriving DecidableEq, Repr

/-- The accuracy gate `if (a && a > accuracyMax) return`: JS `&&`
short-circuits on falsy `a` (`null` or `0`). -/
def accRejected (a : Option ℚ) (accuracyMax : ℚ) : Bool :=
  match a with
  | none => false
  | some x => decide (x ≠ 0) && decide (x > accuracyMax)

/-- `onSuccess` (LocationWatcher.jsx lines 61–100): staleness gate,
accuracy gate, jump guard, then EMA smoothing against the captured
`posClosure`.  Returns the updated state and what was emitted through
`onMove` (if anything). -/
def onSuccess (dist : Coord → Coord → ℚ) (cfg : WatchCfg) (posClosure : Option Coord)
    (st : WatchState) (s : FixSample) : WatchState × Option Coord :=
  if s.now - s.t > cfg.staleMs then (st, none)
  else if accRejected s.accuracy cfg.accuracyMax then (st, none)
  else
    let jumpReject :=
      match st.lastRaw with
      | none => false
      | some pr =>
        let dt := max 1 ((s.t - pr.2) / 1000)
        decide (dist pr.1 s.ll > cfg.jumpGuard * dt + 15)
    if jumpReject then (st, none)
    else
      let smoothed :=
        match posClosure with
        | none => s.ll
        | some p => ⟨p.lat + cfg.ema * (s.ll.lat - p.lat), p.lng + cfg.ema * (s.ll.lng - p.lng)⟩
      (⟨some smoothed, s.accuracy, some (s.ll, s.t)⟩, some smoothed)

/-- Feed a list of fixes through one `onSuccess` callback instance
(fixed `posClosure`), collecting the `onMove` emissions in order. -/
def runWatch (dist : Coord → Coord → ℚ) (cfg : WatchCfg) (posClosure : Option Coord) :
    WatchState → List FixSample → WatchState × List Coord
  | st, [] => (st, [])
  | st, s :: rest =>
    let r1 := onSuccess dist cfg posClosure st s
    let r2 := runWatch dist cfg posClosure r1.1 rest
    (r2.1, match r1.2 with | none => r2.2 | some c => c :: r2.2)

/-- A whole tracking session with constant props: the callback created
at mount captures `pos = null`, so `posClosure` is `none` throughout. -/
def watchSession (dist : Coord → Coord → ℚ) (cfg : WatchCfg) (samples : List FixSample) :
    WatchState × List Coord :=
  runWatch dist cfg none initialWatchState samples

/-! ## Concrete inputs used by witnesses and counterexamples -/

/-- A degenerate stand-in for `haversineMeters` used where a witness
only needs some distance function. -/
def hav0 : Coord → Coord → ℚ := fun _ _ => 0

/-- A taxicab stand-in for `haversineMeters` with exact rational values;
non-negative and zero exactly at equal coordinates, the two properties
the snapping theorems assume of the geodesic distance. -/
def havTaxi : Coord → Coord → ℚ := fun p q => |p.lat - q.lat| + |p.lng - q.lng|

/-- Three nodes in a line, `A – B – C`. -/
def lineGraph : Graph :=
  [("A", [("B", 2)]), ("B", [("A", 2), ("C", 3)]), ("C", [("B", 3)])]

/-- A graph with an empty-string node id on the only `s`–`g` path. -/
def emptyIdGraph : Graph :=
  [("s", [("", 1)]), ("", [("g", 1)]), ("g", [])]

/-- A disconnected graph: `a – b` and an isolated key `z`. -/
def disconnGraph : Graph :=
  [("a", [("b", 1)]), ("b", [("a", 1)]), ("z", [])]

/-- A 2°×2° square polygon. -/
def squarePoly : List (ℚ × ℚ) := [(0, 0), (0, 2), (2, 2), (2, 0)]

/-- Route tables for the inside-building witnesses: the user stands
inside building `B1` whose exit is node `A`; building `X` has entrance
`C`. -/
def insideParams : RouteParams :=
  { nodes := [("A", ⟨0, 0⟩), ("B", ⟨0, 1⟩), ("C", ⟨0, 2⟩)]
    edges := lineGraph
    buildingPolygons := [("B1", squarePoly)]
    buildingEntrance := [("X", "C")]
    buildingExit := [("B1", "A")] }

/-- Route tables for the missing-exit counterexample: same as
`insideParams` but `B1` has no entry in the exit table. -/
def noExitParams : RouteParams :=
  { nodes := [("A", ⟨0, 0⟩), ("B", ⟨0, 1⟩), ("C", ⟨0, 2⟩)]
    edges := lineGraph
    buildingPolygons := [("B1", squarePoly)]
    buildingEntrance := [("X", "C")]
    buildingExit := [] }

/-- A snap function whose result is never consulted by the
inside-building paths. -/
def snapNone : Coord → SnapResult := fun _ => SnapResult.node none none

/-- Route tables whose only polygon entry is keyed by the empty string
(a legal JS object key), with a registered exit `A` for it. -/
def emptyBidParams : RouteParams :=
  { nodes := [("A", ⟨0, 0⟩), ("B", ⟨0, 1⟩), ("C", ⟨0, 2⟩)]
    edges := lineGraph
    buildingPolygons := [("", squarePoly)]
    buildingEntrance := [("X", "C")]
    buildingExit := [("", "A")] }

/-- A snap function standing for a `snapToGraph` call that found the
nearest existing node `Z`. -/
def snapZ : Coord → SnapResult := fun _ => SnapResult.node (some "Z") none

/-- Base graph for the virtual-node witness. -/
def wvnBase : Graph := [("A", [("B", 5)]), ("B", [("A", 5)])]

/-- Node table for the virtual-node witness. -/
def wvnNodes : ObjMap Coord := [("A", ⟨0, 0⟩), ("B", ⟨0, 1⟩)]

/-- The virtual snap of the virtual-node witness. -/
def wvnV : VirtualSnap := ⟨"VIRTUAL_1_ab", ⟨0, 1 / 2⟩, "A", "B"⟩

/-! ## Specification vocabulary for the snapping scans -/

/-- Minimum of a list of extended distances (`⊤` for the empty list). -/
def minD (l : List (WithTop ℚ)) : WithTop ℚ := l.foldr min ⊤

/-- Distance recorded by an optional running best edge (`⊤` when no
edge has been kept yet). -/
def distOf (be : Option BestEdge) : WithTop ℚ :=
  match be with
  | none => ⊤
  | some e => ((e.dist : ℚ) : WithTop ℚ)

/-- The candidates the edge scan considers in row `a` with neighbour
keys `bs`: each key `b` with `a < b` (each undirected edge once) whose
two endpoints are both present in the node table, together with the
endpoint coordinates. -/
def rowCands (nodes : ObjMap Coord) (a : String) (bs : List String) :
    List (String × String × Coord × Coord) :=
  bs.filterMap (fun b =>
    if b ≤ a then none
    else match objLookup nodes a, objLookup nodes b with
      | some na, some nb => some (a, b, na, nb)
      | _, _ => none)

/-- All candidate edges of the snap scan, in scan order. -/
def edgeCands (nodes : ObjMap Coord) (edges : Graph) :
    List (String × String × Coord × Coord) :=
  edges.flatMap (fun p => rowCands nodes p.1 (objKeys p.2))

/-- The coordinate the edge scan attaches to a candidate: project the
query point onto the projected segment and map back to a coordinate. -/
def projOf (projF : ℚ → ℚ → ℚ → ℚ × ℚ) (unprojF : ℚ → ℚ → ℚ → Coord)
    (pXY : ℚ × ℚ) (refLat : ℚ) (na nb : Coord) : Coord :=
  let pr := projectPointToSegment pXY (projF na.lat na.lng refLat) (projF nb.lat nb.lng refLat)
  unprojF pr.1 pr.2.1 refLat

/-- Distance of the query coordinate to a candidate's attachment
point. -/
def candDistP (hav : Coord → Coord → ℚ) (projF : ℚ → ℚ → ℚ → ℚ × ℚ)
    (unprojF : ℚ → ℚ → ℚ → Coord) (c : Coord) (pXY : ℚ × ℚ) (refLat : ℚ)
    (e : String × String × Coord × Coord) : ℚ :=
  hav c (projOf projF unprojF pXY refLat e.2.2.1 e.2.2.2)

/-! ## Further concrete inputs -/

/-- A squared-euclidean stand-in for `haversineMeters` with exact
rational values; non-negative, and zero exactly at equal coordinates. -/
def havSq : Coord → Coord → ℚ :=
  fun p q => (p.lat - q.lat) * (p.lat - q.lat) + (p.lng - q.lng) * (p.lng - q.lng)

/-- Identity stand-in for the equirectangular forward projection
`toXY`. -/
def projId : ℚ → ℚ → ℚ → ℚ × ℚ := fun lat lng _ => (lat, lng)

/-- Identity stand-in for the inverse projection `xyToLatLng`. -/
def unprojId : ℚ → ℚ → ℚ → Coord := fun x y _ => ⟨x, y⟩

/-- Route tables for the snapping witnesses: a single vertical edge
`A–B`; no building polygons; building `X` has entrance `B`. -/
def c9Params : RouteParams :=
  { nodes := [("A", ⟨0, 0⟩), ("B", ⟨0, 2⟩)]
    edges := [("A", [("B", 5 / 2)]), ("B", [("A", 5 / 2)])]
    buildingPolygons := []
    buildingEntrance := [("X", "B")]
    buildingExit := [] }

/-! ## Lemmas about the minimum scan -/

theorem findMin_of_top (dist : String → Option (WithTop ℚ)) :
    ∀ pq : List String, (∀ n ∈ pq, dist n = some ⊤ ∨ dist n = none) →
      findMin dist pq none ⊤ = none := by
  intro pq
  induction pq with
  | nil => intro _; rfl
  | cons n rest ih =>
    intro h
    have hn := h n (List.mem_cons_self _ _)
    have hrest : ∀ m ∈ rest, dist m = some ⊤ ∨ dist m = none :=
      fun m hm => h m (List.mem_cons_of_mem _ hm)
    rcases hn with hn | hn
    · simp only [findMin, hn, lt_self_iff_false, if_false]
      exact ih hrest
    · simp only [findMin, hn]
      exact ih hrest

theorem findMin_zero (dist : String → Option (WithTop ℚ)) (s : String)
    (h0 : dist s = some 0) :
    ∀ (pq : List String) (acc : Option String) (best : WithTop ℚ),
      (∀ n ∈ pq, n ≠ s → dist n = some ⊤ ∨ dist n = none) →
      ((acc = none ∧ best = ⊤) ∨ (acc = some s ∧ best = 0)) →
      (s ∈ pq ∨ acc = some s) →
      findMin dist pq acc best = some s := by
  intro pq
  induction pq with
  | nil =>
    intro acc best _ hstate hmem
    rcases hmem with hmem | hmem
    · simp at hmem
    · simpa [findMin] using hmem
  | cons n rest ih =>
    intro acc best h hstate hmem
    have hrest : ∀ m ∈ rest, m ≠ s → dist m = some ⊤ ∨ dist m = none :=
      fun m hm => h m (List.mem_cons_of_mem _ hm)
    by_cases hns : n = s
    · subst hns
      rcases hstate with ⟨ha, hb⟩ | ⟨ha, hb⟩
      · subst ha hb
        simp only [findMin, h0]
        rw [if_pos (by simp : (0 : WithTop ℚ) < ⊤)]
        exact ih (some n) 0 hrest (Or.inr ⟨rfl, rfl⟩) (Or.inr rfl)
      · subst ha hb
        simp only [findMin, h0]
        rw [if_neg (lt_irrefl _)]
        exact ih (some n) 0 hrest (Or.inr ⟨rfl, rfl⟩) (Or.inr rfl)
    · have hmem2 : s ∈ rest ∨ acc = some s := by
        rcases hmem with hmem | hmem
        · rcases List.mem_cons.mp hmem with he | he
          · exact absurd he.symm hns
          · exact Or.inl he
        · exact Or.inr hmem
      rcases h n (List.mem_cons_self _ _) hns with hn | hn
      · have hlt : ¬ ((⊤ : WithTop ℚ) < best) := by
          rcases hstate with ⟨_, hb⟩ | ⟨_, hb⟩ <;> subst hb <;> simp
        simp only [findMin, hn, if_neg hlt]
        exact ih acc best hrest hstate hmem2
      · simp only [findMin, hn]
        exact ih acc best hrest hstate hmem2

/-- The general specification of the minimum scan when it selects a
node: the selected node is in the scanned list (or was the incoming
accumulator), its distance is finite, and is a lower bound of every
recorded distance in the list. -/
theorem findMin_go (dist : String → Option (WithTop ℚ)) :
    ∀ (pq : List String) (acc : Option String) (best : WithTop ℚ),
      ((acc = none ∧ best = ⊤) ∨ (∃ a, acc = some a ∧ dist a = some best ∧ best < ⊤)) →
      ∀ u, findMin dist pq acc best = some u →
        ∃ du, dist u = some du ∧ du < ⊤ ∧ du ≤ best ∧ (u ∈ pq ∨ acc = some u) ∧
          ∀ n ∈ pq, ∀ dn, dist n = some dn → du ≤ dn := by
  intro pq
  induction pq with
  | nil =>
    intro acc best hstate u hfm
    simp only [findMin] at hfm
    rcases hstate with ⟨ha, _⟩ | ⟨a, ha, hda, hb⟩
    · rw [ha] at hfm; exact absurd hfm (by simp)
    · rw [ha] at hfm
      obtain rfl : a = u := by injection hfm
      exact ⟨best, hda, hb, le_refl _, Or.inr ha, by simp⟩
  | cons n rest ih =>
    intro acc best hstate u hfm
    simp only [findMin] at hfm
    split at hfm
    case h_2 hdn =>
      obtain ⟨du, h1, h2, h3, h4, h5⟩ := ih acc best hstate u hfm
      refine ⟨du, h1, h2, h3, ?_, ?_⟩
      · rcases h4 with h | h
        · exact Or.inl (List.mem_cons_of_mem _ h)
        · exact Or.inr h
      · intro m hm dm hdm
        rcases List.mem_cons.mp hm with rfl | hm2
        · rw [hdm] at hdn; exact absurd hdn (by simp)
        · exact h5 m hm2 dm hdm
    case h_1 d hdn =>
      by_cases hlt : d < best
      · rw [if_pos hlt] at hfm
        have hbest : best ≤ ⊤ := le_top
        have hstate2 : ((some n : Option String) = none ∧ d = ⊤) ∨
            (∃ a, (some n : Option String) = some a ∧ dist a = some d ∧ d < ⊤) := by
          right
          exact ⟨n, rfl, hdn, lt_of_lt_of_le hlt hbest⟩
        obtain ⟨du, h1, h2, h3, h4, h5⟩ := ih (some n) d hstate2 u hfm
        refine ⟨du, h1, h2, le_trans h3 (le_of_lt hlt), ?_, ?_⟩
        · rcases h4 with h | h
          · exact Or.inl (List.mem_cons_of_mem _ h)
          · obtain rfl : n = u := by injection h
            exact Or.inl (List.mem_cons_self _ _)
        · intro m hm dm hdm
          rcases List.mem_cons.mp hm with rfl | hm2
          · rw [hdm] at hdn
            obtain rfl : dm = d := by injection hdn
            exact h3
          · exact h5 m hm2 dm hdm
      · rw [if_neg hlt] at hfm
        obtain ⟨du, h1, h2, h3, h4, h5⟩ := ih acc best hstate u hfm
        refine ⟨du, h1, h2, h3, ?_, ?_⟩
        · rcases h4 with h | h
          · exact Or.inl (List.mem_cons_of_mem _ h)
          · exact Or.inr h
        · intro m hm dm hdm
          rcases List.mem_cons.mp hm with rfl | hm2
          · rw [hdm] at hdn
            obtain rfl : dm = d := by injection hdn
            exact le_trans h3 (not_lt.mp hlt)
          · exact h5 m hm2 dm hdm

/-- When the scan selects nothing, every recorded distance in the list
fails the strict comparison with the running best. -/
theorem findMin_eq_none (dist : String → Option (WithTop ℚ)) :
    ∀ (pq : List String) (acc : Option String) (best : WithTop ℚ),
      findMin dist pq acc best = none →
      acc = none ∧ ∀ n ∈ pq, ∀ dn, dist n = some dn → ¬ dn < best := by
  intro pq
  induction pq with
  | nil =>
    intro acc best hfm
    simp only [findMin] at hfm
    exact ⟨hfm, by simp⟩
  | cons n rest ih =>
    intro acc best hfm
    simp only [findMin] at hfm
    split at hfm
    case h_2 hdn =>
      obtain ⟨h1, h2⟩ := ih acc best hfm
      refine ⟨h1, ?_⟩
      intro m hm dm hdm
      rcases List.mem_cons.mp hm with rfl | hm2
      · rw [hdm] at hdn; exact absurd hdn (by simp)
      · exact h2 m hm2 dm hdm
    case h_1 d hdn =>
      by_cases hlt : d < best
      · rw [if_pos hlt] at hfm
        obtain ⟨h1, _⟩ := ih (some n) d hfm
        exact absurd h1 (by simp)
      · rw [if_neg hlt] at hfm
        obtain ⟨h1, h2⟩ := ih acc best hfm
        refine ⟨h1, ?_⟩
        intro m hm dm hdm
        rcases List.mem_cons.mp hm with rfl | hm2
        · rw [hdm] at hdn
          obtain rfl : dm = d := by injection hdn
          exact hlt
        · exact h2 m hm2 dm hdm

/-- With a well-formed graph, every entry of the iterated adjacency list
is a genuine edge. -/
theorem adj_edgeWeight (g : Graph) (u : String) (hwf : WellFormed g) :
    ∀ vw ∈ adjOf g u, edgeWeight g u vw.1 = some vw.2 := by
  intro vw hvw
  unfold adjOf at hvw
  cases hlk : objLookup g u with
  | none => rw [hlk] at hvw; simp at hvw
  | some adj =>
    rw [hlk] at hvw
    simp only [Option.getD_some] at hvw
    have hmem := objLookup_mem g u adj hlk
    have hnd := hwf.2 (u, adj) hmem
    rw [edgeWeight, hlk, Option.some_bind]
    exact objLookup_of_mem_nodup adj vw.1 vw.2 hnd (by cases vw; exact hvw)

/-- Characterization of one full relaxation pass at an arbitrary node
`n`: either both maps are untouched at `n`, or `n` is an unvisited
adjacency target whose distance was strictly improved to
`du + w` (for one of its listed weights `w`) with predecessor `u`. -/
theorem relax_char (u : String) (du : WithTop ℚ) (visited : List String) :
    ∀ (adj : List (String × ℚ)) (dist : String → Option (WithTop ℚ))
      (prev : String → Option String) (n : String),
      ((relax u du visited adj dist prev).1 n = dist n ∧
        (relax u du visited adj dist prev).2 n = prev n) ∨
      (n ∉ visited ∧ (relax u du visited adj dist prev).2 n = some u ∧
        ∃ w dn, (n, w) ∈ adj ∧ dist n = some dn ∧ du + (w : WithTop ℚ) < dn ∧
          (relax u du visited adj dist prev).1 n = some (du + (w : WithTop ℚ))) := by
  intro adj
  induction adj with
  | nil => intro dist prev n; left; exact ⟨rfl, rfl⟩
  | cons vw rest ih =>
    intro dist prev n
    obtain ⟨v, w⟩ := vw
    by_cases hvis : v ∈ visited
    · simp only [relax, if_pos hvis]
      rcases ih dist prev n with h | ⟨h1, h2, w2, dn, hmem, hdn, hlt, hset⟩
      · exact Or.inl h
      · exact Or.inr ⟨h1, h2, w2, dn, List.mem_cons_of_mem _ hmem, hdn, hlt, hset⟩
    · simp only [relax, if_neg hvis]
      split
      next dv hdv =>
        by_cases hlt : du + (w : WithTop ℚ) < dv
        · rw [if_pos hlt]
          set dist1 : String → Option (WithTop ℚ) :=
            fun m => if m = v then some (du + (w : WithTop ℚ)) else dist m with hdist1
          set prev1 : String → Option String :=
            fun m => if m = v then some u else prev m with hprev1
          rcases ih dist1 prev1 n with ⟨ha, hb⟩ | ⟨h1, h2, w2, dn, hmem, hdn, hlt2, hset⟩
          · by_cases hnv : n = v
            · subst hnv
              right
              refine ⟨hvis, ?_, w, dv, List.mem_cons_self _ _, hdv, hlt, ?_⟩
              · rw [hb, hprev1]; simp
              · rw [ha, hdist1]; simp
            · left
              constructor
              · rw [ha, hdist1]; simp [hnv]
              · rw [hb, hprev1]; simp [hnv]
          · right
            refine ⟨h1, h2, ?_⟩
            by_cases hnv : n = v
            · subst hnv
              rw [hdist1] at hdn
              have hdn2 : du + (w : WithTop ℚ) = dn := by simpa using hdn
              rw [← hdn2] at hlt2
              exact ⟨w2, dv, List.mem_cons_of_mem _ hmem, hdv, lt_trans hlt2 hlt, hset⟩
            · rw [hdist1] at hdn
              simp only [if_neg hnv] at hdn
              exact ⟨w2, dn, List.mem_cons_of_mem _ hmem, hdn, hlt2, hset⟩
        · rw [if_neg hlt]
          rcases ih dist prev n with h | ⟨h1, h2, w2, dn, hmem, hdn, hlt2, hset⟩
          · exact Or.inl h
          · exact Or.inr ⟨h1, h2, w2, dn, List.mem_cons_of_mem _ hmem, hdn, hlt2, hset⟩
      next hdv =>
        rcases ih dist prev n with h | ⟨h1, h2, w2, dn, hmem, hdn, hlt, hset⟩
        · exact Or.inl h
        · exact Or.inr ⟨h1, h2, w2, dn, List.mem_cons_of_mem _ hmem, hdn, hlt, hset⟩

/-- Relaxation never raises a recorded distance. -/
theorem relax_mono (u : String) (du : WithTop ℚ) (visited : List String)
    (adj : List (String × ℚ)) (dist : String → Option (WithTop ℚ))
    (prev : String → Option String) (n : String) (d : WithTop ℚ) (hd : dist n = some d) :
    ∃ d2, (relax u du visited adj dist prev).1 n = some d2 ∧ d2 ≤ d := by
  rcases relax_char u du visited adj dist prev n with ⟨ha, _⟩ | ⟨_, _, w, dn, _, hdn, hlt, hset⟩
  · exact ⟨d, ha ▸ hd, le_refl _⟩
  · rw [hd] at hdn
    obtain rfl : d = dn := by injection hdn
    exact ⟨du + (w : WithTop ℚ), hset, le_of_lt hlt⟩

/-- Relaxation preserves the domain of the distance map. -/
theorem relax_none (u : String) (du : WithTop ℚ) (visited : List String)
    (adj : List (String × ℚ)) (dist : String → Option (WithTop ℚ))
    (prev : String → Option String) (n : String) :
    ((relax u du visited adj dist prev).1 n = none ↔ dist n = none) := by
  rcases relax_char u du visited adj dist prev n with ⟨ha, _⟩ | ⟨_, _, w, dn, _, hdn, _, hset⟩
  · rw [ha]
  · rw [hset, hdn]
    simp

/-- Relaxation touches neither map at a visited node. -/
theorem relax_frozen (u : String) (du : WithTop ℚ) (visited : List String)
    (adj : List (String × ℚ)) (dist : String → Option (WithTop ℚ))
    (prev : String → Option String) (n : String) (hn : n ∈ visited) :
    (relax u du visited adj dist prev).1 n = dist n ∧
      (relax u du visited adj dist prev).2 n = prev n := by
  rcases relax_char u du visited adj dist prev n with h | ⟨h1, _⟩
  · exact h
  · exact absurd hn h1

/-- After a full relaxation pass from `u`, every unvisited listed
neighbour with a recorded distance is bounded by `du + w`. -/
theorem relax_after (u : String) (du : WithTop ℚ) (visited : List String) :
    ∀ (adj : List (String × ℚ)) (dist : String → Option (WithTop ℚ))
      (prev : String → Option String) (n : String) (w0 : ℚ) (d : WithTop ℚ),
      (n, w0) ∈ adj → n ∉ visited → dist n = some d →
      ∃ d2, (relax u du visited adj dist prev).1 n = some d2 ∧
        d2 ≤ du + (w0 : WithTop ℚ) := by
  intro adj
  induction adj with
  | nil => intro dist prev n w0 d hmem; simp at hmem
  | cons vw rest ih =>
    intro dist prev n w0 d hmem hnvis hd
    obtain ⟨v, w⟩ := vw
    rcases List.mem_cons.mp hmem with hhead | hrest
    · -- the target entry is the head
      injection hhead with ha hb
      subst ha
      subst hb
      simp only [relax, if_neg hnvis]
      split
      next dv hdv =>
        rw [hd] at hdv
        obtain rfl : d = dv := by injection hdv
        by_cases hlt : du + (w0 : WithTop ℚ) < d
        · rw [if_pos hlt]
          exact relax_mono u du visited rest _ _ n (du + (w0 : WithTop ℚ)) (by simp)
        · rw [if_neg hlt]
          obtain ⟨d2, hd2, hle⟩ := relax_mono u du visited rest dist prev n d hd
          exact ⟨d2, hd2, le_trans hle (not_lt.mp hlt)⟩
      next hdv =>
        rw [hdv] at hd
        exact absurd hd (by simp)
    · -- the target entry is further down; one head step then induction
      by_cases hvis : v ∈ visited
      · simp only [relax, if_pos hvis]
        exact ih dist prev n w0 d hrest hnvis hd
      · simp only [relax, if_neg hvis]
        split
        next dv hdv =>
          by_cases hlt : du + (w : WithTop ℚ) < dv
          · rw [if_pos hlt]
            by_cases hnv : n = v
            · subst hnv
              exact ih _ _ n w0 (du + (w : WithTop ℚ)) hrest hnvis (by simp)
            · exact ih _ _ n w0 d hrest hnvis (by simp [hnv, hd])
          · rw [if_neg hlt]
            exact ih dist prev n w0 d hrest hnvis hd
        next hdv => exact ih dist prev n w0 d hrest hnvis hd

/-! ## Predecessor chains -/

theorem pathTo_congr (prev prev2 : String → Option String) (start v : String)
    (l : List String) (hp : PathTo prev start v l) :
    (∀ x ∈ l, prev2 x = prev x) → PathTo prev2 start v l := by
  induction hp with
  | single => intro _; exact PathTo.single
  | @snoc u v l hp hpv ih =>
    intro h
    refine PathTo.snoc (ih fun x hx => h x (List.mem_append_left _ hx)) ?_
    rw [h v (List.mem_append_right _ (by simp)), hpv]

theorem pathTo_ne_nil (prev : String → Option String) (start v : String)
    (l : List String) (hp : PathTo prev start v l) : l ≠ [] := by
  induction hp with
  | single => simp
  | snoc _ _ _ => simp

theorem pathTo_headq (prev : String → Option String) (start v : String)
    (l : List String) (hp : PathTo prev start v l) : l.head? = some start := by
  induction hp with
  | single => rfl
  | @snoc u v l hp hpv ih =>
    have hne := pathTo_ne_nil prev start u l hp
    cases l with
    | nil => exact absurd rfl hne
    | cons a rest => simpa using ih

theorem pathTo_lastq (prev : String → Option String) (start v : String)
    (l : List String) (hp : PathTo prev start v l) : l.getLast? = some v := by
  induction hp with
  | single => rfl
  | @snoc u v l hp hpv ih => simp [List.getLast?_concat]

theorem pathTo_last_mem (prev : String → Option String) (start v : String)
    (l : List String) (hp : PathTo prev start v l) : v ∈ l := by
  induction hp with
  | single => simp
  | snoc _ _ _ => simp

/-! ## One iteration of the main loop preserves the invariant -/

theorem relaxStep_inv (g : Graph) (start : String) (hwf : WellFormed g) (hnn : Nonneg g)
    (st : DState) (hinv : LoopInv g start st) (u : String) (duq : ℚ)
    (hu_pq : u ∈ st.pq) (hdu : st.dist u = some ((duq : ℚ) : WithTop ℚ))
    (hmin : ∀ n ∈ st.pq, ∀ dn, st.dist n = some dn → ((duq : ℚ) : WithTop ℚ) ≤ dn) :
    LoopInv g start
      ⟨(relax u ((duq : ℚ) : WithTop ℚ) st.visited (adjOf g u) st.dist st.prev).1,
       (relax u ((duq : ℚ) : WithTop ℚ) st.visited (adjOf g u) st.dist st.prev).2,
       st.visited ++ [u], st.pq.erase u⟩ := by
  have hchar := relax_char u ((duq : ℚ) : WithTop ℚ) st.visited (adjOf g u) st.dist st.prev
  have hmono := relax_mono u ((duq : ℚ) : WithTop ℚ) st.visited (adjOf g u) st.dist st.prev
  have hnone := relax_none u ((duq : ℚ) : WithTop ℚ) st.visited (adjOf g u) st.dist st.prev
  have hfroz := relax_frozen u ((duq : ℚ) : WithTop ℚ) st.visited (adjOf g u) st.dist st.prev
  have hu_keys : u ∈ objKeys g := hinv.pq_sub u hu_pq
  have hu_nvis : u ∉ st.visited := fun h => hinv.disj u h hu_pq
  have hadj : ∀ vw ∈ adjOf g u, edgeWeight g u vw.1 = some vw.2 := adj_edgeWeight g u hwf
  have hw0 : ∀ vw ∈ adjOf g u, 0 ≤ vw.2 := fun vw h => hnn u vw.1 vw.2 (hadj vw h)
  have h0du : 0 ≤ duq := by
    have h := hinv.dist_nonneg u _ hdu
    exact_mod_cast h
  -- the popped node is untouched by its own relaxation pass
  have hfu : (relax u ((duq : ℚ) : WithTop ℚ) st.visited (adjOf g u) st.dist st.prev).1 u
        = st.dist u ∧
      (relax u ((duq : ℚ) : WithTop ℚ) st.visited (adjOf g u) st.dist st.prev).2 u
        = st.prev u := by
    rcases hchar u with h | ⟨_, _, w, dn, hm, hdn, hlt, _⟩
    · exact h
    · exfalso
      rw [hdu] at hdn
      obtain rfl : dn = ((duq : ℚ) : WithTop ℚ) := by
        injection hdn with h2
        exact h2.symm
      have hw : (0 : ℚ) ≤ w := hw0 (u, w) hm
      have hcontra : duq + w < duq := by exact_mod_cast hlt
      linarith
  -- the start node is untouched
  have hfs : (relax u ((duq : ℚ) : WithTop ℚ) st.visited (adjOf g u) st.dist st.prev).1 start
        = st.dist start ∧
      (relax u ((duq : ℚ) : WithTop ℚ) st.visited (adjOf g u) st.dist st.prev).2 start
        = st.prev start := by
    rcases hchar start with h | ⟨_, _, w, dn, hm, hdn, hlt, _⟩
    · exact h
    · exfalso
      rw [hinv.dist_start] at hdn
      obtain rfl : dn = (0 : WithTop ℚ) := by
        injection hdn with h2
        exact h2.symm
      have hw : (0 : ℚ) ≤ w := hw0 (start, w) hm
      have hcontra : duq + w < 0 := by exact_mod_cast hlt
      linarith
  refine
    { pq_sub := ?_, pq_nodup := ?_, vis_sub := ?_, disj := ?_, dist_start := ?_
      dist_keys := ?_, dist_dom := ?_, dist_nonneg := ?_, prev_start := ?_
      prev_vis := ?_, prev_edge := ?_, prev_of_finite := ?_, chain := ?_
      vis_min := ?_, relaxed := ?_ }
  all_goals dsimp only
  · exact fun n hn => hinv.pq_sub n (List.mem_of_mem_erase hn)
  · exact hinv.pq_nodup.erase u
  · intro n hn
    rcases List.mem_append.mp hn with h | h
    · exact hinv.vis_sub n h
    · simp only [List.mem_singleton] at h
      exact h ▸ hu_keys
  · intro n hn
    rcases List.mem_append.mp hn with h | h
    · exact fun hmem => hinv.disj n h (List.mem_of_mem_erase hmem)
    · simp only [List.mem_singleton] at h
      subst h
      intro hmem
      exact absurd ((hinv.pq_nodup.mem_erase_iff).mp hmem).1 (by simp)
  · exact hfs.1.trans hinv.dist_start
  · intro n hn
    obtain ⟨d, hd⟩ := hinv.dist_keys n hn
    obtain ⟨d2, hd2, _⟩ := hmono n d hd
    exact ⟨d2, hd2⟩
  · intro n d hd
    have hne : st.dist n ≠ none := fun h => by
      rw [(hnone n).mpr h] at hd
      exact absurd hd (by simp)
    obtain ⟨d0, hd0⟩ := Option.ne_none_iff_exists.mp hne
    exact hinv.dist_dom n d0 hd0.symm
  · intro n d hd
    rcases hchar n with ⟨ha, _⟩ | ⟨_, _, w, dn, hm, hdn, hlt, hset⟩
    · exact hinv.dist_nonneg n d (ha ▸ hd)
    · rw [hset] at hd
      obtain rfl : d = ((duq : ℚ) : WithTop ℚ) + (w : WithTop ℚ) := by
        injection hd with h2
        exact h2.symm
      have hw : (0 : ℚ) ≤ w := hw0 (n, w) hm
      exact_mod_cast (by linarith : (0 : ℚ) ≤ duq + w)
  · exact hfs.2.trans hinv.prev_start
  · intro v x hx
    rcases hchar v with ⟨_, hb⟩ | ⟨_, hb, _⟩
    · exact List.mem_append_left _ (hinv.prev_vis v x (hb ▸ hx))
    · rw [hb] at hx
      obtain rfl : x = u := by injection hx with h2; exact h2.symm
      exact List.mem_append_right _ (by simp)
  · intro v x hx
    rcases hchar v with ⟨ha, hb⟩ | ⟨_, hb, w, dn, hm, hdn, hlt, hset⟩
    · rw [hb] at hx
      obtain ⟨w, dx, hew, hdx, hdv⟩ := hinv.prev_edge v x hx
      have hxvis : x ∈ st.visited := hinv.prev_vis v x hx
      refine ⟨w, dx, hew, ?_, ?_⟩
      · rw [(hfroz x hxvis).1, hdx]
      · rw [ha, hdv]
    · rw [hb] at hx
      obtain rfl : x = u := by injection hx with h2; exact h2.symm
      refine ⟨w, duq, hadj (v, w) hm, hfu.1.trans hdu, ?_⟩
      rw [hset]
      exact congrArg some (by exact_mod_cast rfl)
  · intro v hv q hq
    rcases hchar v with ⟨ha, hb⟩ | ⟨_, hb, _⟩
    · obtain ⟨x, hx⟩ := hinv.prev_of_finite v hv q (ha ▸ hq)
      exact ⟨x, hb ▸ hx⟩
    · exact ⟨u, hb⟩
  · intro v hv
    rcases List.mem_append.mp hv with h | h
    · obtain ⟨l, hnd, hsub, hpt⟩ := hinv.chain v h
      refine ⟨l, hnd, fun x hx => List.mem_append_left _ (hsub x hx), ?_⟩
      exact pathTo_congr st.prev _ start v l hpt
        (fun x hx => (hfroz x (hsub x hx)).2)
    · simp only [List.mem_singleton] at h
      subst h
      cases hpu : st.prev v with
      | some p =>
        have hpvis : p ∈ st.visited := hinv.prev_vis v p hpu
        obtain ⟨l, hnd, hsub, hpt⟩ := hinv.chain p hpvis
        refine ⟨l ++ [v], ?_, ?_, ?_⟩
        · rw [List.nodup_append]
          refine ⟨hnd, List.nodup_singleton _, ?_⟩
          intro x hx
          simp only [List.mem_singleton]
          intro he
          subst he
          exact hu_nvis (hsub x hx)
        · intro x hx
          rcases List.mem_append.mp hx with h2 | h2
          · exact List.mem_append_left _ (hsub x h2)
          · exact List.mem_append_right _ h2
        · refine PathTo.snoc ?_ (hfu.2.trans hpu)
          exact pathTo_congr st.prev _ start p l hpt
            (fun x hx => (hfroz x (hsub x hx)).2)
      | none =>
        have hvstart : v = start := by
          by_contra hne
          obtain ⟨x, hx⟩ := hinv.prev_of_finite v hne duq hdu
          rw [hpu] at hx
          exact absurd hx (by simp)
        refine ⟨[v], List.nodup_singleton _, ?_, ?_⟩
        · intro x hx
          simp only [List.mem_singleton] at hx
          subst hx
          exact List.mem_append_right _ (by simp)
        · rw [hvstart]
          exact PathTo.single
  · intro v hv
    rcases List.mem_append.mp hv with h | h
    · obtain ⟨dv, hdv, hbound⟩ := hinv.vis_min v h
      refine ⟨dv, (hfroz v h).1.trans hdv, ?_⟩
      intro n hn dn hdn
      have hnpq : n ∈ st.pq := List.mem_of_mem_erase hn
      rcases hchar n with ⟨ha, _⟩ | ⟨_, _, w, dn0, hm, hdn0, hlt, hset⟩
      · exact hbound n hnpq dn (ha ▸ hdn)
      · rw [hset] at hdn
        obtain rfl : dn = ((duq : ℚ) : WithTop ℚ) + (w : WithTop ℚ) := by
          injection hdn with h2
          exact h2.symm
        have h1 : ((dv : ℚ) : WithTop ℚ) ≤ ((duq : ℚ) : WithTop ℚ) :=
          hbound u hu_pq _ hdu
        have hw : (0 : ℚ) ≤ w := hw0 (n, w) hm
        have h2 : ((duq : ℚ) : WithTop ℚ) ≤ ((duq : ℚ) : WithTop ℚ) + (w : WithTop ℚ) :=
          le_add_of_nonneg_right (by exact_mod_cast hw)
        exact le_trans h1 h2
    · simp only [List.mem_singleton] at h
      subst h
      refine ⟨duq, hfu.1.trans hdu, ?_⟩
      intro n hn dn hdn
      have hnpq : n ∈ st.pq := List.mem_of_mem_erase hn
      rcases hchar n with ⟨ha, _⟩ | ⟨_, _, w, dn0, hm, hdn0, hlt, hset⟩
      · exact hmin n hnpq dn (ha ▸ hdn)
      · rw [hset] at hdn
        obtain rfl : dn = ((duq : ℚ) : WithTop ℚ) + (w : WithTop ℚ) := by
          injection hdn with h2
          exact h2.symm
        have hw : (0 : ℚ) ≤ w := hw0 (n, w) hm
        exact le_add_of_nonneg_right (by exact_mod_cast hw)
  · intro x hx dxq hdx vw hvw hdom
    rcases List.mem_append.mp hx with h | h
    · have hfx := (hfroz x h).1
      rw [hfx] at hdx
      obtain ⟨dv, hdv, hle⟩ := hinv.relaxed x h dxq hdx vw hvw hdom
      obtain ⟨d2, hd2, hle2⟩ := hmono vw.1 dv hdv
      exact ⟨d2, hd2, le_trans hle2 hle⟩
    · simp only [List.mem_singleton] at h
      subst h
      rw [hfu.1, hdu] at hdx
      have hdq : dxq = duq := by
        injection hdx with h2
        exact_mod_cast h2.symm
      rw [hdq]
      obtain ⟨v, w⟩ := vw
      by_cases hvvis : v ∈ st.visited
      · obtain ⟨dv, hdv, hbound⟩ := hinv.vis_min v hvvis
        refine ⟨((dv : ℚ) : WithTop ℚ), (hfroz v hvvis).1.trans hdv, ?_⟩
        have h1 : ((dv : ℚ) : WithTop ℚ) ≤ ((duq : ℚ) : WithTop ℚ) :=
          hbound x hu_pq _ hdu
        have hw : (0 : ℚ) ≤ w := hw0 (v, w) hvw
        refine le_trans h1 ?_
        exact_mod_cast (by linarith : duq ≤ duq + w)
      · have hdsome : ∃ d0, st.dist v = some d0 := by
          rcases hdom with hk | hs
          · exact hinv.dist_keys v hk
          · have hs2 : v = start := hs
            exact ⟨0, by rw [hs2]; exact hinv.dist_start⟩
        obtain ⟨d0, hd0⟩ := hdsome
        obtain ⟨d2, hd2, hle⟩ := relax_after x ((duq : ℚ) : WithTop ℚ) st.visited
          (adjOf g x) st.dist st.prev v w d0 hvw hvvis hd0
        refine ⟨d2, hd2, le_trans hle ?_⟩
        exact_mod_cast le_refl (duq + w)

/-- The master induction over the main loop: the invariant is
preserved, and at exit either the goal has a finite recorded distance
(the loop broke by popping the goal) or the minimum scan finds nothing
and every key is still tracked. -/
theorem dijkstraLoop_master (g : Graph) (start goal : String)
    (hwf : WellFormed g) (hnn : Nonneg g) :
    ∀ (fuel : Nat) (st : DState), LoopInv g start st → st.pq.length ≤ fuel →
      LoopInv g start (dijkstraLoop g goal fuel st) ∧
      (KeysCovered g st →
        ((∃ d : ℚ, (dijkstraLoop g goal fuel st).dist goal = some ((d : ℚ) : WithTop ℚ)) ∨
         (findMin (dijkstraLoop g goal fuel st).dist (dijkstraLoop g goal fuel st).pq none ⊤
            = none ∧
          KeysCovered g (dijkstraLoop g goal fuel st)))) := by
  intro fuel
  induction fuel with
  | zero =>
    intro st hinv hlen
    have hpq : st.pq = [] := List.length_eq_zero.mp (Nat.le_zero.mp hlen)
    simp only [dijkstraLoop]
    refine ⟨hinv, fun hkc => Or.inr ⟨?_, hkc⟩⟩
    rw [hpq]
    rfl
  | succ fuel ih =>
    intro st hinv hlen
    by_cases hemp : st.pq.isEmpty
    · have hpq : st.pq = [] := by
        cases hp : st.pq with
        | nil => rfl
        | cons a l => rw [hp] at hemp; simp at hemp
      simp only [dijkstraLoop]
      rw [if_pos hemp]
      refine ⟨hinv, fun hkc => Or.inr ⟨?_, hkc⟩⟩
      rw [hpq]
      rfl
    · simp only [dijkstraLoop]
      rw [if_neg hemp]
      split
      next hfm =>
        exact ⟨hinv, fun hkc => Or.inr ⟨hfm, hkc⟩⟩
      next u hfm =>
        obtain ⟨du, hdu, hdutop, hdule, humem, hminu2⟩ :=
          findMin_go st.dist st.pq none ⊤ (Or.inl ⟨rfl, rfl⟩) u hfm
        have hu_pq : u ∈ st.pq := by
          rcases humem with h | h
          · exact h
          · exact absurd h (by simp)
        obtain ⟨duq, hduq⟩ :=
          WithTop.ne_top_iff_exists.mp (WithTop.lt_top_iff_ne_top.mp hdutop)
        have hdu2 : st.dist u = some ((duq : ℚ) : WithTop ℚ) := by
          rw [hdu, ← hduq]
        have hmin2 : ∀ n ∈ st.pq, ∀ dn, st.dist n = some dn →
            ((duq : ℚ) : WithTop ℚ) ≤ dn := by
          intro n hn dn hdn
          rw [hduq]
          exact hminu2 n hn dn hdn
        by_cases hug : u = goal
        · rw [if_pos hug]
          refine ⟨{ pq_sub := fun n hn => hinv.pq_sub n (List.mem_of_mem_erase hn)
                    pq_nodup := hinv.pq_nodup.erase u
                    vis_sub := hinv.vis_sub
                    disj := fun n hn hm => hinv.disj n hn (List.mem_of_mem_erase hm)
                    dist_start := hinv.dist_start, dist_keys := hinv.dist_keys
                    dist_dom := hinv.dist_dom, dist_nonneg := hinv.dist_nonneg
                    prev_start := hinv.prev_start, prev_vis := hinv.prev_vis
                    prev_edge := hinv.prev_edge, prev_of_finite := hinv.prev_of_finite
                    chain := hinv.chain, vis_min := ?_, relaxed := hinv.relaxed },
                  fun _ => Or.inl ⟨duq, ?_⟩⟩
          · intro v hv
            obtain ⟨dv, h1, h2⟩ := hinv.vis_min v hv
            exact ⟨dv, h1, fun n hn dn hdn => h2 n (List.mem_of_mem_erase hn) dn hdn⟩
          · show st.dist goal = some ((duq : ℚ) : WithTop ℚ)
            rw [← hug, hdu, ← hduq]
        · rw [if_neg hug]
          split
          next dval hdval =>
            have hdval2 : dval = ((duq : ℚ) : WithTop ℚ) := by
              rw [hdu2] at hdval
              injection hdval with h2
              exact h2.symm
            subst hdval2
            have hinv2 := relaxStep_inv g start hwf hnn st hinv u duq hu_pq hdu2 hmin2
            have hpos : 0 < st.pq.length := List.length_pos.mpr (by
              intro h
              rw [h] at hu_pq
              exact absurd hu_pq (by simp))
            have hlen2 : (st.pq.erase u).length ≤ fuel := by
              rw [List.length_erase_of_mem hu_pq]
              omega
            have hstep := ih _ hinv2 hlen2
            refine ⟨hstep.1, fun hkc => hstep.2 ?_⟩
            intro v hvk
            rcases hkc v hvk with h | h
            · by_cases hvu : v = u
              · exact Or.inr (List.mem_append_right _ (by simp [hvu]))
              · exact Or.inl ((List.mem_erase_of_ne hvu).mpr h)
            · exact Or.inr (List.mem_append_left _ h)
          next hdval =>
            rw [hdu2] at hdval
            exact absurd hdval (by simp)

/-- The initial loop state satisfies the invariant and tracks every
key. -/
theorem dijkstra_init_inv (g : Graph) (start : String) (hwf : WellFormed g) :
    LoopInv g start
      ⟨fun n => if n = start then some 0 else if n ∈ objKeys g then some ⊤ else none,
       fun _ => none, [], objKeys g⟩ ∧
    KeysCovered g
      ⟨fun n => if n = start then some 0 else if n ∈ objKeys g then some ⊤ else none,
       fun _ => none, [], objKeys g⟩ := by
  constructor
  · refine
      { pq_sub := fun n hn => hn, pq_nodup := hwf.1
        vis_sub := fun n hn => absurd hn (by simp)
        disj := fun n hn => absurd hn (by simp)
        dist_start := by simp
        dist_keys := ?_, dist_dom := ?_, dist_nonneg := ?_
        prev_start := rfl
        prev_vis := fun v u h => absurd h (by simp)
        prev_edge := fun v u h => absurd h (by simp)
        prev_of_finite := ?_
        chain := fun v hv => absurd hv (by simp)
        vis_min := fun v hv => absurd hv (by simp)
        relaxed := fun u hu => absurd hu (by simp) }
    · intro n hn
      by_cases h : n = start
      · exact ⟨0, by simp [h]⟩
      · exact ⟨⊤, by simp [h, hn]⟩
    · intro n d hd
      dsimp only at hd
      by_cases h : n = start
      · exact Or.inr h
      · rw [if_neg h] at hd
        by_cases h2 : n ∈ objKeys g
        · exact Or.inl h2
        · rw [if_neg h2] at hd
          exact absurd hd (by simp)
    · intro n d hd
      dsimp only at hd
      by_cases h : n = start
      · rw [if_pos h] at hd
        obtain rfl : d = 0 := by injection hd with h2; exact h2.symm
        exact le_refl _
      · rw [if_neg h] at hd
        by_cases h2 : n ∈ objKeys g
        · rw [if_pos h2] at hd
          obtain rfl : d = ⊤ := by injection hd with h2; exact h2.symm
          exact le_top
        · rw [if_neg h2] at hd
          exact absurd hd (by simp)
    · intro v hv q hq
      dsimp only at hq ⊢
      rw [if_neg hv] at hq
      by_cases h2 : v ∈ objKeys g
      · rw [if_pos h2] at hq
        injection hq with h3
        exact absurd h3.symm (by simp)
      · rw [if_neg h2] at hq
        exact absurd hq (by simp)
  · intro v hv
    exact Or.inl hv

/-- Every predecessor chain ends in a one-element suffix holding its
endpoint. -/
theorem pathTo_concat_form (prev : String → Option String) (start v : String)
    (l : List String) (hp : PathTo prev start v l) : ∃ l2, l = l2 ++ [v] := by
  induction hp with
  | single => exact ⟨[], rfl⟩
  | @snoc u v l hp hpv ih => exact ⟨l, rfl⟩

/-- The JS reconstruction loop follows a stored predecessor chain
exactly, given enough fuel. -/
theorem recon_of_chain (prev : String → Option String) (start : String)
    (hps : prev start = none) :
    ∀ (v : String) (l : List String), PathTo prev start v l →
      ∀ (fuel : Nat) (acc : List String), l.length ≤ fuel + 1 →
        recon prev start fuel v acc = some (acc ++ l.dropLast.reverse) := by
  intro v l hp
  induction hp with
  | single =>
    intro fuel acc _
    have h1 : recon prev start fuel start acc = some acc := by
      cases fuel with
      | zero => simp [recon]
      | succ f => simp [recon]
    rw [h1]
    simp
  | @snoc u v l hp hpv ih =>
    intro fuel acc hlen
    have hvne : v ≠ start := by
      intro he
      rw [he, hps] at hpv
      exact absurd hpv (by simp)
    have hlne := pathTo_ne_nil prev start u l hp
    cases fuel with
    | zero =>
      exfalso
      have : l.length = 0 := by
        have := hlen
        simp only [List.length_append, List.length_singleton] at this
        omega
      exact hlne (List.length_eq_zero.mp this)
    | succ f =>
      rw [recon, if_neg hvne, hpv]
      have hrec := ih f (acc ++ [u]) (by
        have := hlen
        simp only [List.length_append, List.length_singleton] at this
        omega)
      show recon prev start f u (acc ++ [u]) = some (acc ++ (l ++ [v]).dropLast.reverse)
      rw [hrec]
      obtain ⟨l2, rfl⟩ := pathTo_concat_form prev start u l hp
      simp [List.dropLast_concat]

/-- A duplicate-free list contained in another is no longer than it. -/
theorem nodup_subset_length (l m : List String) (hnd : l.Nodup)
    (hsub : ∀ x ∈ l, x ∈ m) : l.length ≤ m.length := by
  have h1 : l.toFinset.card = l.length := List.toFinset_card_of_nodup hnd
  have h2 : l.toFinset ⊆ m.toFinset := by
    intro x hx
    rw [List.mem_toFinset] at hx ⊢
    exact hsub x hx
  calc l.length = l.toFinset.card := h1.symm
    _ ≤ m.toFinset.card := Finset.card_le_card h2
    _ ≤ m.length := m.toFinset_card_le

/-- Appending one more edge to a node sequence adds its weight. -/
theorem pathWeight_concat (g : Graph) :
    ∀ (l : List String) (u v : String) (w q : ℚ), l.getLast? = some u →
      edgeWeight g u v = some w → pathWeight g l = some q →
      pathWeight g (l ++ [v]) = some (q + w) := by
  intro l
  induction l with
  | nil => intro u v w q h; simp at h
  | cons a rest ih =>
    intro u v w q hlast hew hpw
    cases rest with
    | nil =>
      obtain rfl : a = u := by simpa using hlast
      obtain rfl : q = 0 := by
        simp only [pathWeight] at hpw
        injection hpw with h2
        exact h2.symm
      simp [pathWeight, hew]
    | cons b rest2 =>
      simp only [pathWeight] at hpw
      cases hab : edgeWeight g a b with
      | none => rw [hab] at hpw; simp at hpw
      | some w1 =>
        rw [hab] at hpw
        cases hq2 : pathWeight g (b :: rest2) with
        | none => rw [hq2] at hpw; simp at hpw
        | some q2 =>
          rw [hq2] at hpw
          simp only [Option.some_bind, Option.map_some] at hpw
          obtain rfl : q = w1 + q2 := by injection hpw with h2; exact h2.symm
          have hlast2 : (b :: rest2).getLast? = some u := by
            rw [List.getLast?_cons_cons] at hlast
            exact hlast
          have hih := ih u v w q2 hlast2 hew hq2
          have hshape : (a :: b :: rest2) ++ [v] = a :: ((b :: rest2) ++ [v]) := by simp
          rw [hshape]
          simp only [pathWeight, hab, Option.some_bind]
          have hih2 : pathWeight g (b :: List.append rest2 [v]) = some (q2 + w) := hih
          rw [hih2]
          show some (w1 + (q2 + w)) = some (w1 + q2 + w)
          congr 1
          ring

/-- Consecutive pairs of a sequence with a defined path weight are
edges. -/
theorem chain_of_pathWeight (g : Graph) :
    ∀ (l : List String) (q : ℚ), pathWeight g l = some q →
      List.Chain' (fun a b => ∃ w, edgeWeight g a b = some w) l := by
  intro l
  induction l with
  | nil => intro q _; simp
  | cons a rest ih =>
    intro q hpw
    cases rest with
    | nil => simp
    | cons b rest2 =>
      simp only [pathWeight] at hpw
      cases hab : edgeWeight g a b with
      | none => rw [hab] at hpw; simp at hpw
      | some w1 =>
        rw [hab] at hpw
        cases hq2 : pathWeight g (b :: rest2) with
        | none => rw [hq2] at hpw; simp at hpw
        | some q2 =>
          exact List.Chain'.cons ⟨w1, hab⟩ (ih q2 hq2)

/-- Along a stored predecessor chain, the recorded distance of the
endpoint is the sum of the edge weights of the chain. -/
theorem dist_eq_pathWeight (g : Graph) (start : String) (st : DState)
    (hinv : LoopInv g start st) :
    ∀ (v : String) (l : List String), PathTo st.prev start v l →
      ∃ q : ℚ, st.dist v = some ((q : ℚ) : WithTop ℚ) ∧ pathWeight g l = some q := by
  intro v l hp
  induction hp with
  | single =>
    refine ⟨0, ?_, rfl⟩
    rw [hinv.dist_start]
    exact congrArg some (by exact_mod_cast rfl)
  | @snoc u v l hp hpv ih =>
    obtain ⟨q, hq, hpw⟩ := ih
    obtain ⟨w, du, hew, hdu, hdv⟩ := hinv.prev_edge v u hpv
    have hqdu : q = du := by
      rw [hq] at hdu
      injection hdu with h2
      exact_mod_cast h2
    refine ⟨du + w, hdv, ?_⟩
    rw [← hqdu]
    exact pathWeight_concat g l u v w q (pathTo_lastq st.prev start u l hp) hew hpw

/-- A stored predecessor chain witnesses reachability. -/
theorem reach_of_pathTo (g : Graph) (start : String) (st : DState)
    (hinv : LoopInv g start st) :
    ∀ (v : String) (l : List String), PathTo st.prev start v l →
      ReachableP g start v := by
  intro v l hp
  induction hp with
  | single => exact ReachableP.refl
  | @snoc u v l hp hpv ih =>
    obtain ⟨w, du, hew, _, _⟩ := hinv.prev_edge v u hpv
    exact ReachableP.step ih hew

/-- Completeness at a terminated state: when the minimum scan finds
nothing and every key is tracked, every reachable key has a finite
recorded distance. -/
theorem reach_finite (g : Graph) (s : String) (st : DState) (hinv : LoopInv g s st)
    (hfmn : findMin st.dist st.pq none ⊤ = none) (hkc : KeysCovered g st) :
    ∀ v, ReachableP g s v → v ∈ objKeys g →
      ∃ d : ℚ, st.dist v = some ((d : ℚ) : WithTop ℚ) := by
  have hnot : ∀ n ∈ st.pq, ∀ dn, st.dist n = some dn → ¬ dn < ⊤ :=
    (findMin_eq_none st.dist st.pq none ⊤ hfmn).2
  intro v hr
  induction hr with
  | refl =>
    intro _
    refine ⟨0, ?_⟩
    rw [hinv.dist_start]
    exact congrArg some (by exact_mod_cast rfl)
  | @step u v w hru hew ih =>
    intro hvk
    have huk : u ∈ objKeys g := by
      unfold edgeWeight at hew
      cases hlk : objLookup g u with
      | none => rw [hlk] at hew; simp at hew
      | some adj => exact mem_objKeys_of_lookup g u adj hlk
    obtain ⟨du, hdu⟩ := ih huk
    have hunpq : u ∉ st.pq := by
      intro hmem
      exact hnot u hmem _ hdu (by exact_mod_cast WithTop.coe_lt_top du)
    have huvis : u ∈ st.visited := by
      rcases hkc u huk with h | h
      · exact absurd h hunpq
      · exact h
    have hvw_adj : (v, w) ∈ adjOf g u := by
      unfold edgeWeight at hew
      cases hlk : objLookup g u with
      | none => rw [hlk] at hew; simp at hew
      | some adj =>
        rw [hlk] at hew
        simp only [Option.some_bind] at hew
        unfold adjOf
        rw [hlk]
        exact objLookup_mem adj v w hew
    obtain ⟨dv, hdv, hle⟩ := hinv.relaxed u huvis du hdu (v, w) hvw_adj (Or.inl hvk)
    obtain ⟨q, hq, _⟩ := WithTop.le_coe_iff.mp hle
    exact ⟨q, by rw [hdv, hq]⟩

/-- The core analysis of a `dijkstra` run on a well-formed graph with
non-negative weights: the call returns (no divergence); an empty path
is the no-path result and — when source and target are keys and no node
id is the empty string — occurs only for an unreachable target; a
non-empty path runs from source to target and its recorded distance is
the sum of its edge weights. -/
theorem dijkstra_analysis (g : Graph) (s t : String) (hwf : WellFormed g) (hnn : Nonneg g) :
    ∃ r, dijkstra g s t = some r ∧
      (r.path = [] → s ≠ t ∧ r.distance = some ⊤ ∧
        (s ∈ objKeys g → t ∈ objKeys g → "" ∉ objKeys g → ¬ ReachableP g s t)) ∧
      (r.path ≠ [] → r.path.head? = some s ∧ r.path.getLast? = some t ∧ ReachableP g s t ∧
        ∃ q : ℚ, pathWeight g r.path = some q ∧
          r.distance = some ((q : ℚ) : WithTop ℚ)) := by
  obtain ⟨hinv0, hkc0⟩ := dijkstra_init_inv g s hwf
  obtain ⟨hinvf, hexit⟩ :=
    dijkstraLoop_master g s t hwf hnn (objKeys g).length _ hinv0 (le_refl _)
  set stf := dijkstraLoop g t (objKeys g).length
    ⟨fun n => if n = s then some 0 else if n ∈ objKeys g then some ⊤ else none,
     fun _ => none, [], objKeys g⟩ with hstf
  have hdij : dijkstra g s t =
      (if prevFalsy (stf.prev t) ∧ s ≠ t then some ⟨[], some ⊤⟩
       else
         match recon stf.prev s ((objKeys g).length + 1) t [t] with
         | some p => some ⟨p.reverse, stf.dist t⟩
         | none => none) := rfl
  have hfinite_imp : (∃ d : ℚ, stf.dist t = some ((d : ℚ) : WithTop ℚ)) → s ≠ t →
      ∃ x, stf.prev t = some x ∧ x ∈ objKeys g := by
    rintro ⟨d, hd⟩ hst
    obtain ⟨x, hx⟩ := hinvf.prev_of_finite t (fun he => hst he.symm) d hd
    exact ⟨x, hx, hinvf.vis_sub x (hinvf.prev_vis t x hx)⟩
  by_cases hbr : prevFalsy (stf.prev t) ∧ s ≠ t
  · refine ⟨⟨[], some ⊤⟩, by rw [hdij, if_pos hbr], ?_, ?_⟩
    · intro _
      refine ⟨hbr.2, rfl, ?_⟩
      intro hs ht hnemp hreach
      have hfin : ∃ d : ℚ, stf.dist t = some ((d : ℚ) : WithTop ℚ) := by
        rcases hexit hkc0 with h | ⟨hfmn, hkcf⟩
        · exact h
        · exact reach_finite g s stf hinvf hfmn hkcf t hreach ht
      obtain ⟨x, hx, hxk⟩ := hfinite_imp hfin hbr.2
      have hxne : x ≠ "" := fun he => hnemp (he ▸ hxk)
      have := hbr.1
      rw [hx] at this
      simp only [prevFalsy] at this
      exact hxne (by simpa using this)
    · intro h
      exact absurd rfl h
  · by_cases hst : s = t
    · subst hst
      have hrec : recon stf.prev s ((objKeys g).length + 1) s [s] = some [s] := by
        rw [recon, if_pos rfl]
      refine ⟨⟨[s], stf.dist s⟩, ?_, ?_, ?_⟩
      · rw [hdij, if_neg hbr, hrec]
        simp
      · intro h
        exact absurd h (by simp)
      · intro _
        refine ⟨rfl, rfl, ReachableP.refl, 0, rfl, ?_⟩
        rw [hinvf.dist_start]
        exact congrArg some (by exact_mod_cast rfl)
    · have hpf : ¬ prevFalsy (stf.prev t) = true := fun h => hbr ⟨h, hst⟩
      cases hpt : stf.prev t with
      | none => exact absurd (by rw [hpt]; rfl) hpf
      | some p =>
        have hpvis := hinvf.prev_vis t p hpt
        obtain ⟨l, hnd, hsub, hPT⟩ := hinvf.chain p hpvis
        have hPTt : PathTo stf.prev s t (l ++ [t]) := PathTo.snoc hPT hpt
        have hlsub : ∀ x ∈ l, x ∈ objKeys g :=
          fun x hx => hinvf.vis_sub x (hsub x hx)
        have hllen : l.length ≤ (objKeys g).length :=
          nodup_subset_length l (objKeys g) hnd hlsub
        have hrec := recon_of_chain stf.prev s hinvf.prev_start t (l ++ [t]) hPTt
          ((objKeys g).length + 1) [t]
          (by simp only [List.length_append, List.length_singleton]; omega)
        rw [List.dropLast_concat] at hrec
        refine ⟨⟨([t] ++ l.reverse).reverse, stf.dist t⟩, ?_, ?_, ?_⟩
        · rw [hdij, if_neg hbr, hrec]
        · intro h
          simp at h
        · intro _
          have hshape : ([t] ++ l.reverse).reverse = l ++ [t] := by simp
          rw [hshape]
          obtain ⟨q, hq, hpw⟩ := dist_eq_pathWeight g s stf hinvf t (l ++ [t]) hPTt
          refine ⟨pathTo_headq stf.prev s t (l ++ [t]) hPTt,
            pathTo_lastq stf.prev s t (l ++ [t]) hPTt,
            reach_of_pathTo g s stf hinvf t (l ++ [t]) hPTt, q, hpw, hq⟩

/-- C10 helper: the main loop leaves the initial distance and
predecessor maps untouched when source and goal coincide. -/
theorem dijkstraLoop_self (g : Graph) (s : String) (keys : List String) :
    ∃ pq', dijkstraLoop g s keys.length
      ⟨fun n => if n = s then some 0 else if n ∈ keys then some ⊤ else none,
       fun _ => none, [], keys⟩ =
      ⟨fun n => if n = s then some 0 else if n ∈ keys then some ⊤ else none,
       fun _ => none, [], pq'⟩ := by
  set dist0 : String → Option (WithTop ℚ) :=
    fun n => if n = s then some 0 else if n ∈ keys then some ⊤ else none with hdist0
  have h0 : dist0 s = some 0 := by simp [hdist0]
  cases keys with
  | nil => exact ⟨[], rfl⟩
  | cons k rest =>
    by_cases hs : s ∈ k :: rest
    · have hfm : findMin dist0 (k :: rest) none ⊤ = some s := by
        apply findMin_zero dist0 s h0 (k :: rest) none ⊤
        · intro n hnmem hn
          left
          simp only [hdist0]
          rw [if_neg hn, if_pos hnmem]
        · exact Or.inl ⟨rfl, rfl⟩
        · exact Or.inl hs
      refine ⟨(k :: rest).erase s, ?_⟩
      simp only [List.length_cons, dijkstraLoop, List.isEmpty_cons, hfm]
      simp
    · have hfm : findMin dist0 (k :: rest) none ⊤ = none := by
        apply findMin_of_top
        intro n hn
        left
        simp only [hdist0]
        rw [if_neg (fun he : n = s => hs (he ▸ hn)), if_pos hn]
      refine ⟨k :: rest, ?_⟩
      simp only [List.length_cons, dijkstraLoop, List.isEmpty_cons, hfm]
      simp

/-- C10: for every graph and every node id `s` — whether or not `s` has
any incident edges — `dijkstra(graph, s, s)` returns the single-node
path `[s]` with distance `0`, not the no-path result. -/
theorem dijkstra_source_eq_goal (g : Graph) (s : String) :
    dijkstra g s s = some ⟨[s], some 0⟩ := by
  obtain ⟨pq', hloop⟩ := dijkstraLoop_self g s (objKeys g)
  unfold dijkstra
  simp only [hloop]
  rw [if_neg (by simp)]
  simp only [recon, if_pos rfl]
  simp [List.reverse_singleton]

/-- `Nonneg` follows from non-negativity of every listed entry (which
is decidable for a concrete graph). -/
theorem nonneg_of_entries (g : Graph) (h : ∀ p ∈ g, ∀ e ∈ p.2, 0 ≤ e.2) : Nonneg g := by
  intro u v w hew
  unfold edgeWeight at hew
  cases hlk : objLookup g u with
  | none => rw [hlk] at hew; simp at hew
  | some adj =>
    rw [hlk] at hew
    simp only [Option.some_bind] at hew
    exact h (u, adj) (objLookup_mem g u adj hlk) (v, w) (objLookup_mem adj v w hew)

/-! ## C1: returned paths are genuine source–target paths with the
summed distance -/

/-- C1: for every well-formed graph with non-negative edge weights,
whenever `dijkstra` returns a non-empty node sequence, that sequence
starts at the source, ends at the target, every consecutive pair is an
edge of the graph, and the returned distance equals the sum of the
weights of those consecutive edges. -/
theorem dijkstra_path_correct (g : Graph) (s t : String) (hwf : WellFormed g)
    (hnn : Nonneg g) (r : DijkstraResult) (hr : dijkstra g s t = some r)
    (hne : r.path ≠ []) :
    r.path.head? = some s ∧ r.path.getLast? = some t ∧
    List.Chain' (fun a b => ∃ w, edgeWeight g a b = some w) r.path ∧
    ∃ q : ℚ, pathWeight g r.path = some q ∧
      r.distance = some ((q : ℚ) : WithTop ℚ) := by
  obtain ⟨r2, hr2, _, hprops⟩ := dijkstra_analysis g s t hwf hnn
  rw [hr] at hr2
  obtain rfl : r = r2 := by injection hr2
  obtain ⟨h1, h2, _, q, hq, hd⟩ := hprops hne
  exact ⟨h1, h2, chain_of_pathWeight g r.path q hq, q, hq, hd⟩

/-- C1 witness: the line graph `A–B–C` with weights 2 and 3; the run
from `A` to `C` returns `[A, B, C]` with distance `5 = 2 + 3`. -/
theorem dijkstra_path_correct_witness :
    (["A", "B", "C"] : List String).head? = some "A" ∧
    (["A", "B", "C"] : List String).getLast? = some "C" ∧
    List.Chain' (fun a b => ∃ w, edgeWeight lineGraph a b = some w) ["A", "B", "C"] ∧
    ∃ q : ℚ, pathWeight lineGraph ["A", "B", "C"] = some q ∧
      (some ((5 : ℚ) : WithTop ℚ) : Option (WithTop ℚ)) = some ((q : ℚ) : WithTop ℚ) :=
  dijkstra_path_correct lineGraph "A" "C" ⟨by decide, by decide⟩
    (nonneg_of_entries lineGraph (by decide))
    ⟨["A", "B", "C"], some ((5 : ℚ) : WithTop ℚ)⟩
    (by norm_num +decide [dijkstra, dijkstraLoop, findMin, relax, recon, objKeys, objLookup,
      lineGraph, prevFalsy, List.erase, ← WithTop.coe_add, WithTop.coe_lt_coe,
      WithTop.coe_lt_top])
    (by simp)

/-! ## C2: the no-path result -/

/-- C2 counterexample: the claim "the solver returns the no-path result
iff the target is unreachable" fails on a graph whose only
source-to-target path runs through a node with the empty-string id:
`prev[goal]` is `""`, which is falsy, so `!prev[goal]` wrongly reports
no path although the target is reachable. -/
theorem dijkstra_emptyId_counterexample :
    dijkstra emptyIdGraph "s" "g" = some ⟨[], some ⊤⟩ ∧
      ReachableP emptyIdGraph "s" "g" := by
  constructor
  · norm_num +decide [dijkstra, dijkstraLoop, findMin, relax, recon, objKeys, objLookup,
      emptyIdGraph, prevFalsy, List.erase, ← WithTop.coe_add, WithTop.coe_lt_coe,
      WithTop.coe_lt_top]
  · exact ReachableP.step (u := "") (w := 1)
      (ReachableP.step (w := 1) ReachableP.refl (by rfl)) (by rfl)

/-- C2 (amended: node ids must not include the empty string, because
`!prev[goal]` treats an empty-string predecessor as "no predecessor"):
for every well-formed graph with non-negative edge weights and source
and target among the adjacency keys, `dijkstra` returns, and returns
the no-path result — empty path, `Infinity` distance — exactly when the
target is unreachable from the source; and `computeRoute` surfaces that
case as the tagged value `{ok: false, error: "No path found"}` rather
than raising. -/
theorem dijkstra_nopath_iff (g : Graph) (s t : String) (hwf : WellFormed g)
    (hnn : Nonneg g) (hs : s ∈ objKeys g) (ht : t ∈ objKeys g)
    (hemp : "" ∉ objKeys g) :
    (∃ r, dijkstra g s t = some r ∧ (r.path = [] ↔ ¬ ReachableP g s t) ∧
      (r.path = [] → r.distance = some ⊤)) ∧
    (∀ (hav : Coord → Coord → ℚ) (P : RouteParams) (snapFn : Coord → SnapResult)
      (c : Coord) (destB dest : String) (gA : Graph) (rr : DijkstraResult),
      objLookup P.buildingEntrance destB = some dest → dest ≠ "" →
      withVirtualNode hav P.nodes P.edges (resolveOrigin P snapFn c).virt = some gA →
      dijkstra gA (resolveOrigin P snapFn c).originNodeId dest = some rr →
      (computeRoute hav P snapFn c destB = some (RouteResult.err "No path found") ↔
        rr.path = [])) := by
  constructor
  · obtain ⟨r, hr, hempty, hnonempty⟩ := dijkstra_analysis g s t hwf hnn
    refine ⟨r, hr, ⟨?_, ?_⟩, fun h => (hempty h).2.1⟩
    · intro h
      exact (hempty h).2.2 hs ht hemp
    · intro h
      by_contra hne
      exact h ((hnonempty hne).2.2.1)
  · intro hav P snapFn c destB dest gA rr hent hdne hwvn hdij2
    have hcr : computeRoute hav P snapFn c destB =
        (if rr.path.isEmpty then some (RouteResult.err "No path found")
         else
           match polylineOf P.nodes (resolveOrigin P snapFn c).virt rr.path with
           | none => none
           | some coords =>
             some (RouteResult.ok
               { pathNodeIds := rr.path
                 distanceMeters := jsRound rr.distance
                 polyline := coords
                 startedInsideBuilding := strTruthy (resolveOrigin P snapFn c).insideBuildingId
                 startBuilding :=
                   if strTruthy (resolveOrigin P snapFn c).insideBuildingId then
                     (resolveOrigin P snapFn c).insideBuildingId
                   else none
                 originNodeId := (resolveOrigin P snapFn c).originNodeId
                 destNodeId := dest })) := by
      simp only [computeRoute, hent, hwvn, hdij2]
      rw [if_neg hdne]
    rw [hcr]
    constructor
    · intro h
      by_cases hp : rr.path.isEmpty
      · exact List.isEmpty_iff.mp hp
      · rw [if_neg hp] at h
        cases hpl : polylineOf P.nodes (resolveOrigin P snapFn c).virt rr.path with
        | none => rw [hpl] at h; exact absurd h (by simp)
        | some coords =>
          rw [hpl] at h
          simp only [Option.some_inj] at h
          exact absurd h (by simp)
    · intro h
      rw [if_pos (by simp [h])]

/-- C2 witness: on the disconnected graph `a – b`, `z`, the run from
`a` to `z` returns the no-path result, and the theorem turns that into
a proof that `z` is unreachable from `a`. -/
theorem dijkstra_nopath_iff_witness :
    (∃ r, dijkstra disconnGraph "a" "z" = some r ∧
      (r.path = [] ↔ ¬ ReachableP disconnGraph "a" "z") ∧
      (r.path = [] → r.distance = some ⊤)) ∧
    (∀ (hav : Coord → Coord → ℚ) (P : RouteParams) (snapFn : Coord → SnapResult)
      (c : Coord) (destB dest : String) (gA : Graph) (rr : DijkstraResult),
      objLookup P.buildingEntrance destB = some dest → dest ≠ "" →
      withVirtualNode hav P.nodes P.edges (resolveOrigin P snapFn c).virt = some gA →
      dijkstra gA (resolveOrigin P snapFn c).originNodeId dest = some rr →
      (computeRoute hav P snapFn c destB = some (RouteResult.err "No path found") ↔
        rr.path = [])) :=
  dijkstra_nopath_iff disconnGraph "a" "z" ⟨by decide, by decide⟩
    (nonneg_of_entries disconnGraph (by decide))
    (by decide) (by decide) (by decide)

/-! ## C6: the virtual-node augmentation -/

/-- C6: for every base graph and edge-snap result with endpoints
`(a, b)` (distinct, both present in the node table, neither equal to the
fresh virtual id), the graph built by `withVirtualNode` equals the base
graph plus one new node connected to `a` and `b` with weights
`hav(coord, nodes[a])` and `hav(coord, nodes[b])`; the original direct
edge `(a, b)` keeps its original weight; and every adjacency not
involving the new node is exactly the base one (the augmentation is a
pure per-call value — the base graph value is untouched). -/
theorem withVirtualNode_spec (hav : Coord → Coord → ℚ) (nodes : ObjMap Coord) (base : Graph)
    (v : VirtualSnap) (na nb : Coord)
    (hna : objLookup nodes v.a = some na) (hnb : objLookup nodes v.b = some nb)
    (hab : v.a ≠ v.b) (hia : v.nodeId ≠ v.a) (hib : v.nodeId ≠ v.b) :
    ∃ g, withVirtualNode hav nodes base (some v) = some g ∧
      objLookup g v.nodeId = some [(v.a, hav v.coord na), (v.b, hav v.coord nb)] ∧
      edgeWeight g v.a v.nodeId = some (hav v.coord na) ∧
      edgeWeight g v.b v.nodeId = some (hav v.coord nb) ∧
      (∀ x y, x ≠ v.nodeId → y ≠ v.nodeId → edgeWeight g x y = edgeWeight base x y) ∧
      edgeWeight g v.a v.b = edgeWeight base v.a v.b ∧
      withVirtualNode hav nodes base none = some base := by
  set dA := hav v.coord na with hdA
  set dB := hav v.coord nb with hdB
  set lit : ObjMap ℚ := objSet (objSet [] v.a dA) v.b dB with hlit
  set g1 := objSet base v.nodeId lit with hg1
  set rowA := objSet ((objLookup g1 v.a).getD []) v.nodeId dA with hrowA
  set g2 := objSet g1 v.a rowA with hg2
  set rowB := objSet ((objLookup g2 v.b).getD []) v.nodeId dB with hrowB
  set g3 := objSet g2 v.b rowB with hg3
  have hdef : withVirtualNode hav nodes base (some v) = some g3 := by
    simp only [withVirtualNode, hna, hnb]
  have hlitval : lit = [(v.a, dA), (v.b, dB)] := by
    simp only [hlit, objSet]
    rw [if_neg hab]
  have hlk1a : objLookup g1 v.a = objLookup base v.a :=
    objLookup_objSet_ne base v.nodeId v.a lit hia
  have hlk2b : objLookup g2 v.b = objLookup g1 v.b :=
    objLookup_objSet_ne g1 v.a v.b rowA hab
  have hlk1b : objLookup g1 v.b = objLookup base v.b :=
    objLookup_objSet_ne base v.nodeId v.b lit hib
  refine ⟨g3, hdef, ?_, ?_, ?_, ?_, ?_, rfl⟩
  · -- the new node's row
    have h3 : objLookup g3 v.nodeId = objLookup g2 v.nodeId :=
      objLookup_objSet_ne g2 v.b v.nodeId rowB (fun h => hib h.symm)
    have h2 : objLookup g2 v.nodeId = objLookup g1 v.nodeId :=
      objLookup_objSet_ne g1 v.a v.nodeId rowA (fun h => hia h.symm)
    rw [h3, h2, hg1, objLookup_objSet_self, hlitval]
  · -- back edge a → virtual
    have h3 : objLookup g3 v.a = objLookup g2 v.a :=
      objLookup_objSet_ne g2 v.b v.a rowB (fun h => hab h.symm)
    rw [edgeWeight, h3, hg2, objLookup_objSet_self]
    simp only [Option.some_bind, hrowA, objLookup_objSet_self]
  · -- back edge b → virtual
    rw [edgeWeight, hg3, objLookup_objSet_self]
    simp only [Option.some_bind, hrowB, objLookup_objSet_self]
  · -- everything away from the virtual id is the base adjacency
    intro x y hx hy
    by_cases hxb : x = v.b
    · subst hxb
      rw [edgeWeight, hg3, objLookup_objSet_self, Option.some_bind, hrowB,
        objLookup_objSet_ne _ _ _ _ (fun h => hy h.symm), hlk2b, hlk1b, edgeWeight]
      cases hlb : objLookup base v.b with
      | none => simp [objLookup]
      | some row => simp
    · have h3 : objLookup g3 x = objLookup g2 x :=
        objLookup_objSet_ne g2 v.b x rowB (fun h => hxb h.symm)
      by_cases hxa : x = v.a
      · subst hxa
        rw [edgeWeight, h3, hg2, objLookup_objSet_self, Option.some_bind, hrowA,
          objLookup_objSet_ne _ _ _ _ (fun h => hy h.symm), hlk1a, edgeWeight]
        cases hla : objLookup base v.a with
        | none => simp [objLookup]
        | some row => simp
      · have h2 : objLookup g2 x = objLookup g1 x :=
          objLookup_objSet_ne g1 v.a x rowA (fun h => hxa h.symm)
        have h1 : objLookup g1 x = objLookup base x :=
          objLookup_objSet_ne base v.nodeId x lit (fun h => hx h.symm)
        rw [edgeWeight, h3, h2, h1, edgeWeight]
  · -- the original direct edge (a, b) is retained unmodified
    have h3 : objLookup g3 v.a = objLookup g2 v.a :=
      objLookup_objSet_ne g2 v.b v.a rowB (fun h => hab h.symm)
    rw [edgeWeight, h3, hg2, objLookup_objSet_self, Option.some_bind, hrowA,
      objLookup_objSet_ne _ _ _ _ hib, hlk1a, edgeWeight]
    cases hla : objLookup base v.a with
    | none => simp [objLookup]
    | some row => simp

/-- C6 witness: the augmentation at the concrete midpoint snap of the
edge `A – B`. -/
theorem withVirtualNode_spec_witness :
    ∃ g, withVirtualNode havTaxi wvnNodes wvnBase (some wvnV) = some g ∧
      objLookup g wvnV.nodeId =
        some [(wvnV.a, havTaxi wvnV.coord ⟨0, 0⟩), (wvnV.b, havTaxi wvnV.coord ⟨0, 1⟩)] ∧
      edgeWeight g wvnV.a wvnV.nodeId = some (havTaxi wvnV.coord ⟨0, 0⟩) ∧
      edgeWeight g wvnV.b wvnV.nodeId = some (havTaxi wvnV.coord ⟨0, 1⟩) ∧
      (∀ x y, x ≠ wvnV.nodeId → y ≠ wvnV.nodeId →
        edgeWeight g x y = edgeWeight wvnBase x y) ∧
      edgeWeight g wvnV.a wvnV.b = edgeWeight wvnBase wvnV.a wvnV.b ∧
      withVirtualNode havTaxi wvnNodes wvnBase none = some wvnBase :=
  withVirtualNode_spec havTaxi wvnNodes wvnBase wvnV ⟨0, 0⟩ ⟨0, 1⟩
    (by simp [wvnNodes, wvnV, objLookup]) (by simp [wvnNodes, wvnV, objLookup])
    (by simp [wvnV]) (by simp [wvnV]) (by simp [wvnV])

/-! ## C3: inside-building origin resolution -/

/-- C3 counterexample: the user stands inside the building keyed by the
empty string, which has the registered exit `A`; but `if
(insideBuildingId)` is a JS truthiness test and `""` is falsy, so the
code snaps to the graph instead: the origin resolves to the snapped
node `Z`, not to the registered exit. -/
theorem computeRoute_emptyBid_counterexample :
    findInside emptyBidParams.buildingPolygons ⟨1, 1⟩ = some "" ∧
    objLookup emptyBidParams.buildingExit "" = some "A" ∧
    resolveOrigin emptyBidParams snapZ ⟨1, 1⟩ = ⟨"Z", none, some ""⟩ ∧
    (⟨"Z", none, some ""⟩ : OriginRes) ≠ ⟨"A", none, some ""⟩ := by
  refine ⟨?_, by simp [emptyBidParams, objLookup], ?_, by decide⟩
  · norm_num [emptyBidParams, findInside, pointInPolygon, pipPairs, pipIntersect, squarePoly]
  · norm_num [resolveOrigin, emptyBidParams, findInside, pointInPolygon, pipPairs,
      pipIntersect, squarePoly, strTruthy, snapZ]

/-- C3 (corrected: the first-matching building id must be truthy — for
a building keyed by the empty string, JS `if (insideBuildingId)` is
falsy and the code snaps to the graph instead): when the user
coordinate lies inside some building polygon (the first match `B` in
iteration order), `B ≠ ""`, and `B` has a registered exit node,
`computeRoute` resolves the route origin to that exit node — never to a
snapped node or edge attachment: the resolution is the same for every
possible snap result, and a successful route reports the exit as its
origin. -/
theorem computeRoute_inside_building (P : RouteParams) (snapFn : Coord → SnapResult)
    (userCoord : Coord) (B ex : String)
    (hB : findInside P.buildingPolygons userCoord = some B) (hBne : B ≠ "")
    (hex : objLookup P.buildingExit B = some ex) :
    resolveOrigin P snapFn userCoord = ⟨ex, none, some B⟩ ∧
      (∀ (hav : Coord → Coord → ℚ) (dest : String) (r : RouteOk),
        computeRoute hav P snapFn userCoord dest = some (RouteResult.ok r) →
        r.originNodeId = ex) := by
  have hres : resolveOrigin P snapFn userCoord = ⟨ex, none, some B⟩ := by
    simp [resolveOrigin, hB, hex, strTruthy, hBne]
  refine ⟨hres, ?_⟩
  intro hav dest r hcr
  simp only [computeRoute, hres] at hcr
  cases hent : objLookup P.buildingEntrance dest with
  | none => simp [hent] at hcr
  | some d =>
    simp only [hent] at hcr
    by_cases hd : d = ""
    · simp [hd] at hcr
    · rw [if_neg hd] at hcr
      simp only [withVirtualNode] at hcr
      cases hdj : dijkstra P.edges ex d with
      | none => simp [hdj] at hcr
      | some rr =>
        simp only [hdj] at hcr
        by_cases hp : rr.path.isEmpty
        · simp [hp] at hcr
        · rw [if_neg (by simpa using hp)] at hcr
          cases hpl : polylineOf P.nodes none rr.path with
          | none => simp [hpl] at hcr
          | some coords =>
            simp only [hpl, Option.some_inj, RouteResult.ok.injEq] at hcr
            rw [← hcr]

/-- C3 witness: the user at `(1, 1)` inside building `B1` (exit `A`)
resolves to origin `A` and the computed route to building `X` reports
origin `A`. -/
theorem computeRoute_inside_building_witness :
    resolveOrigin insideParams snapNone ⟨1, 1⟩ = ⟨"A", none, some "B1"⟩ ∧
      (∀ (hav : Coord → Coord → ℚ) (dest : String) (r : RouteOk),
        computeRoute hav insideParams snapNone ⟨1, 1⟩ dest = some (RouteResult.ok r) →
        r.originNodeId = "A") :=
  computeRoute_inside_building insideParams snapNone ⟨1, 1⟩ "B1" "A"
    (by norm_num [insideParams, findInside, pointInPolygon, pipPairs, pipIntersect, squarePoly])
    (by decide)
    (by simp [insideParams, objLookup])

/-! ## C8: the position-filter gates -/

/-- C8: a sample rejected by any of the three gates — staleness,
accuracy (with a non-negative configured bound), or the jump guard —
produces no emission and leaves the whole filter state (smoothed
position, stored accuracy, last accepted raw fix) unchanged. -/
theorem onSuccess_rejected (dist : Coord → Coord → ℚ) (cfg : WatchCfg)
    (posClosure : Option Coord) (st : WatchState) (s : FixSample)
    (hacc0 : 0 ≤ cfg.accuracyMax)
    (hrej : s.now - s.t > cfg.staleMs ∨
      (∃ x, s.accuracy = some x ∧ x > cfg.accuracyMax) ∨
      (∃ pc pt, st.lastRaw = some (pc, pt) ∧
        dist pc s.ll > cfg.jumpGuard * max 1 ((s.t - pt) / 1000) + 15)) :
    onSuccess dist cfg posClosure st s = (st, none) := by
  by_cases hstale : s.now - s.t > cfg.staleMs
  · simp [onSuccess, hstale]
  · unfold onSuccess
    rw [if_neg hstale]
    by_cases haccr : accRejected s.accuracy cfg.accuracyMax = true
    · rw [if_pos haccr]
    · rw [if_neg haccr]
      rcases hrej with h | ⟨x, hx, hgt⟩ | ⟨pc, pt, hlr, hjump⟩
      · exact absurd h hstale
      · exfalso
        apply haccr
        have hx0 : x ≠ 0 := by
          intro h0
          rw [h0] at hgt
          exact absurd (lt_of_le_of_lt hacc0 hgt) (lt_irrefl 0)
        simp [accRejected, hx, hx0, hgt]
      · rw [hlr]
        simp [hjump]

/-- C8 witness: a stale fix (9 seconds old under the default 8-second
threshold) is dropped with the state untouched. -/
theorem onSuccess_rejected_witness :
    onSuccess hav0 defaultWatchCfg none initialWatchState ⟨⟨10, 20⟩, some 5, 1000, 10000⟩ =
      (initialWatchState, none) :=
  onSuccess_rejected hav0 defaultWatchCfg none initialWatchState _
    (by norm_num [defaultWatchCfg])
    (Or.inl (by norm_num [defaultWatchCfg]))

/-! ## C7: the EMA smoothing that the session never applies -/

/-- C7 (divergence witness): with constant default props, a first fix
at `(10, 20)` and a second fix displaced by `0.0001°` of latitude —
about 11 metres, within the jump allowance `8·1 + 15 = 23` metres, so
the hypothesis bounding the geodesic distance by 23 holds for the real
haversine — both fixes pass every gate, yet the second emission is the
raw coordinate `(10.0001, 20)`, not the EMA blend
`(10 + 0.25·0.0001, 20)` required by the claim, because the geolocation
callback reads the `pos` captured at mount (`null`) and therefore
always takes the first-fix branch. -/
theorem watchSession_second_fix_unsmoothed (dist : Coord → Coord → ℚ)
    (hd : dist ⟨10, 20⟩ ⟨100001 / 10000, 20⟩ ≤ 23) :
    (watchSession dist defaultWatchCfg
        [⟨⟨10, 20⟩, some 5, 1000, 1000⟩, ⟨⟨100001 / 10000, 20⟩, some 5, 2000, 2000⟩]).2 =
      [⟨10, 20⟩, ⟨100001 / 10000, 20⟩] ∧
    (⟨100001 / 10000, 20⟩ : Coord) ≠
      ⟨10 + (1 / 4) * (100001 / 10000 - 10), 20⟩ := by
  constructor
  · have hgt : ¬ (dist ⟨10, 20⟩ ⟨100001 / 10000, 20⟩ > 23) := not_lt.mpr hd
    norm_num [watchSession, runWatch, onSuccess, initialWatchState, defaultWatchCfg,
      accRejected, max_def, hgt]
  · intro h
    have h2 := congrArg Coord.lat h
    norm_num at h2

/-- C7 witness: the squared-distance stand-in satisfies the 23-metre
bound at the two fixes (their squared planar distance is `10⁻⁸`), and
the session then emits the raw second coordinate. -/
theorem watchSession_second_fix_unsmoothed_witness :
    havSq ⟨10, 20⟩ ⟨100001 / 10000, 20⟩ ≤ 23 ∧
    ((watchSession havSq defaultWatchCfg
        [⟨⟨10, 20⟩, some 5, 1000, 1000⟩, ⟨⟨100001 / 10000, 20⟩, some 5, 2000, 2000⟩]).2 =
      [⟨10, 20⟩, ⟨100001 / 10000, 20⟩] ∧
    (⟨100001 / 10000, 20⟩ : Coord) ≠
      ⟨10 + (1 / 4) * (100001 / 10000 - 10), 20⟩) :=
  ⟨by norm_num [havSq],
   watchSession_second_fix_unsmoothed havSq (by norm_num [havSq])⟩

/-! ## C4: a building without a registered exit -/

/-- Helper for the missing-exit analysis: when no queue entry is the
source, every queued distance is `Infinity` and the first minimum scan
already finds nothing, so the main loop returns its initial state. -/
theorem dijkstraLoop_no_source (g : Graph) (t s : String) (keys : List String)
    (hs : ∀ n ∈ keys, n ≠ s) :
    dijkstraLoop g t keys.length
      ⟨fun n => if n = s then some 0 else if n ∈ keys then some ⊤ else none,
       fun _ => none, [], keys⟩ =
      ⟨fun n => if n = s then some 0 else if n ∈ keys then some ⊤ else none,
       fun _ => none, [], keys⟩ := by
  cases keys with
  | nil => rfl
  | cons k rest =>
    have hfm : findMin
        (fun n => if n = s then some 0 else if n ∈ (k :: rest) then some ⊤ else none)
        (k :: rest) none ⊤ = none := by
      apply findMin_of_top
      intro n hn
      left
      rw [if_neg (hs n hn), if_pos hn]
    simp only [List.length_cons, dijkstraLoop, List.isEmpty_cons, hfm]
    simp

/-- Helper: starting the solver from an id that is not an adjacency key
(and differs from the goal) immediately yields the no-path result. -/
theorem dijkstra_start_not_key (g : Graph) (s t : String)
    (hs : s ∉ objKeys g) (hst : s ≠ t) :
    dijkstra g s t = some ⟨[], some ⊤⟩ := by
  have hloop := dijkstraLoop_no_source g t s (objKeys g)
    (fun n hn he => hs (he ▸ hn))
  unfold dijkstra
  simp only [hloop]
  rw [if_pos ⟨rfl, hst⟩]

/-- C4 counterexample: the user stands inside building `B1`, which has
no entry in the building-exit table, yet `computeRoute` does not fail
with a dedicated missing-exit error: it reports the generic no-path
error, so no tagged result distinct from the no-path error exists. -/
theorem computeRoute_noExit_counterexample :
    computeRoute hav0 noExitParams snapNone ⟨1, 1⟩ "X" =
        some (RouteResult.err "No path found") ∧
      findInside noExitParams.buildingPolygons ⟨1, 1⟩ = some "B1" ∧
      objLookup noExitParams.buildingExit "B1" = none := by
  refine ⟨?_, ?_, by simp [noExitParams, objLookup]⟩
  · have hdj : dijkstra noExitParams.edges "undefined" "C" = some ⟨[], some ⊤⟩ :=
      dijkstra_start_not_key noExitParams.edges "undefined" "C" (by decide) (by decide)
    have hres : resolveOrigin noExitParams snapNone ⟨1, 1⟩ = ⟨"undefined", none, some "B1"⟩ := by
      norm_num [resolveOrigin, noExitParams, findInside, pointInPolygon, pipPairs,
        pipIntersect, squarePoly, objLookup, strTruthy]
      decide
    have hent : objLookup noExitParams.buildingEntrance "X" = some "C" := by
      simp [noExitParams, objLookup]
    simp only [computeRoute, hres, hent]
    rw [if_neg (by decide : ¬ ("C" : String) = "")]
    simp only [withVirtualNode, hdj]
    simp
  · norm_num [noExitParams, findInside, pointInPolygon, pipPairs, pipIntersect, squarePoly]

/-- C4 (corrected): there is no dedicated missing-exit error in the
code.  When the user stands inside a building with no registered exit,
`originNodeId` is left `undefined`; the solver then runs from the key
`"undefined"`, which (provided the adjacency map has no such key and it
differs from the destination node) finds no path, and the failure
surfaces as the generic `"No path found"` error result.  The building
id must be truthy (`B ≠ ""`): an empty-string id takes the snap branch
instead. -/
theorem computeRoute_missing_exit (hav : Coord → Coord → ℚ) (P : RouteParams)
    (snapFn : Coord → SnapResult) (userCoord : Coord) (B destB dest : String)
    (hB : findInside P.buildingPolygons userCoord = some B) (hBne : B ≠ "")
    (hex : objLookup P.buildingExit B = none)
    (hent : objLookup P.buildingEntrance destB = some dest)
    (hde : dest ≠ "") (hdu : dest ≠ "undefined")
    (hgu : "undefined" ∉ objKeys P.edges) :
    computeRoute hav P snapFn userCoord destB =
      some (RouteResult.err "No path found") := by
  have hres : resolveOrigin P snapFn userCoord = ⟨"undefined", none, some B⟩ := by
    simp [resolveOrigin, hB, hex, strTruthy, hBne]
  have hdj : dijkstra P.edges "undefined" dest = some ⟨[], some ⊤⟩ :=
    dijkstra_start_not_key P.edges "undefined" dest hgu (Ne.symm hdu)
  simp only [computeRoute, hres, hent]
  rw [if_neg hde]
  simp only [withVirtualNode, hdj]
  simp

/-- C4 witness: the concrete missing-exit scenario — user at `(1, 1)`
inside `B1`, exit table empty, destination building `X` with entrance
`C` — produces the generic no-path error. -/
theorem computeRoute_missing_exit_witness :
    computeRoute hav0 noExitParams snapNone ⟨1, 1⟩ "X" =
      some (RouteResult.err "No path found") :=
  computeRoute_missing_exit hav0 noExitParams snapNone ⟨1, 1⟩ "B1" "X" "C"
    (by norm_num [noExitParams, findInside, pointInPolygon, pipPairs, pipIntersect, squarePoly])
    (by decide)
    (by simp [noExitParams, objLookup])
    (by simp [noExitParams, objLookup])
    (by decide) (by decide) (by decide)

/-! ## C9: determinism up to the generated virtual id -/

/-- Helper: the generated fresh id is only read in the edge-attachment
branch; a snap that resolves to an existing node is the same for every
fresh id. -/
theorem snapToGraph_node_freshId (hav : Coord → Coord → ℚ)
    (projF : ℚ → ℚ → ℚ → ℚ × ℚ) (unprojF : ℚ → ℚ → ℚ → Coord)
    (id1 id2 : String) (c : Coord) (nodes : ObjMap Coord) (edges : Graph)
    (nid : Option String) (co : Option Coord)
    (h : snapToGraph hav projF unprojF id1 c nodes edges = SnapResult.node nid co) :
    snapToGraph hav projF unprojF id2 c nodes edges = SnapResult.node nid co := by
  simp only [snapToGraph] at h ⊢
  cases hbe : bestEdgeOuter hav projF unprojF c (projF c.lat c.lng c.lat) c.lat
      nodes edges none with
  | none =>
    simp only [hbe] at h ⊢
    exact h
  | some e =>
    simp only [hbe] at h ⊢
    by_cases hc : ((e.dist + 1 / 10 : ℚ) : WithTop ℚ) < (bestNodeLoop hav c nodes none ⊤).2
    · rw [if_pos hc] at h
      exact absurd h (by simp)
    · rw [if_neg hc] at h ⊢
      exact h

/-- C9 counterexample: the virtual node id is generated from
`Date.now()` and `Math.random()`, so two invocations on identical
inputs whose origin snaps onto an edge return results that are not
bit-identical: the path node ids and origin field embed the generated
id. -/
theorem computeRoute_virtualId_counterexample :
    computeRoute havSq c9Params
        (fun c => snapToGraph havSq projId unprojId "VIRTUAL_1_p" c c9Params.nodes c9Params.edges)
        ⟨1, 1 / 2⟩ "X" ≠
      computeRoute havSq c9Params
        (fun c => snapToGraph havSq projId unprojId "VIRTUAL_2_q" c c9Params.nodes c9Params.edges)
        ⟨1, 1 / 2⟩ "X" := by
  norm_num +decide [computeRoute, resolveOrigin, findInside, snapToGraph, bestNodeLoop,
    bestEdgeOuter, bestEdgeInner, projectPointToSegment, projId, unprojId, havSq, c9Params,
    objLookup, objKeys, objSet, withVirtualNode, dijkstra, dijkstraLoop, findMin, relax, recon,
    prevFalsy, polylineOf, jsRound, strTruthy, List.erase, min_def, max_def,
    WithTop.recTopCoe_coe, ← WithTop.coe_add, WithTop.coe_lt_coe, WithTop.coe_lt_top]
  cases h1 : "VIRTUAL_1_p".startsWith "VIRTUAL" <;>
    cases h2 : "VIRTUAL_2_q".startsWith "VIRTUAL" <;> simp

/-- C9 (corrected: determinism holds only up to the generated virtual
node id): for a fixed user coordinate, destination building and tables,
two invocations differing only in the generated fresh id return equal
results whenever origin resolution does not produce an edge attachment
— the user is inside a building, or the snap decision picks an existing
node.  (When it does produce an edge attachment, the generated id is
embedded in the result, as the counterexample shows.) -/
theorem computeRoute_deterministic (hav : Coord → Coord → ℚ)
    (projF : ℚ → ℚ → ℚ → ℚ × ℚ) (unprojF : ℚ → ℚ → ℚ → Coord)
    (P : RouteParams) (id1 id2 : String) (userCoord : Coord) (destB : String)
    (hnv : (resolveOrigin P
        (fun c => snapToGraph hav projF unprojF id1 c P.nodes P.edges) userCoord).virt = none) :
    computeRoute hav P (fun c => snapToGraph hav projF unprojF id1 c P.nodes P.edges)
        userCoord destB =
      computeRoute hav P (fun c => snapToGraph hav projF unprojF id2 c P.nodes P.edges)
        userCoord destB := by
  have hro : resolveOrigin P (fun c => snapToGraph hav projF unprojF id1 c P.nodes P.edges)
      userCoord =
      resolveOrigin P (fun c => snapToGraph hav projF unprojF id2 c P.nodes P.edges)
        userCoord := by
    simp only [resolveOrigin] at hnv ⊢
    by_cases ht : strTruthy (findInside P.buildingPolygons userCoord) = true
    · rw [if_pos ht, if_pos ht]
    · rw [if_neg ht] at hnv ⊢
      cases hs1 : snapToGraph hav projF unprojF id1 userCoord P.nodes P.edges with
      | node nid co =>
        have hs2 := snapToGraph_node_freshId hav projF unprojF id1 id2 userCoord
          P.nodes P.edges nid co hs1
        rw [if_neg ht]
        simp only [hs1, hs2]
      | virt v =>
        simp only [hs1] at hnv
        exact absurd hnv (by simp)
  simp only [computeRoute, hro]

/-- C9 witness: with the user standing exactly on node `A`, the snap
resolves to the existing node for every fresh id, and the two
invocations agree. -/
theorem computeRoute_deterministic_witness :
    computeRoute havSq c9Params
        (fun c => snapToGraph havSq projId unprojId "VIRTUAL_1_p" c c9Params.nodes c9Params.edges)
        ⟨0, 0⟩ "X" =
      computeRoute havSq c9Params
        (fun c => snapToGraph havSq projId unprojId "VIRTUAL_2_q" c c9Params.nodes c9Params.edges)
        ⟨0, 0⟩ "X" :=
  computeRoute_deterministic havSq projId unprojId c9Params "VIRTUAL_1_p" "VIRTUAL_2_q"
    ⟨0, 0⟩ "X"
    (by norm_num +decide [resolveOrigin, findInside, c9Params, snapToGraph, bestNodeLoop,
      bestEdgeOuter, bestEdgeInner, projectPointToSegment, projId, unprojId, havSq, objLookup,
      objKeys, strTruthy, min_def, max_def, WithTop.coe_lt_coe, WithTop.coe_lt_top])

/-! ## C5: the snap decision rule -/

theorem minD_nil : minD [] = ⊤ := rfl

theorem minD_cons (a : WithTop ℚ) (l : List (WithTop ℚ)) :
    minD (a :: l) = min a (minD l) := rfl

theorem minD_append (l1 l2 : List (WithTop ℚ)) :
    minD (l1 ++ l2) = min (minD l1) (minD l2) := by
  induction l1 with
  | nil => rw [List.nil_append, minD_nil, min_eq_right le_top]
  | cons a t ih => rw [List.cons_append, minD_cons, minD_cons, ih, min_assoc]

theorem minD_le_of_mem {x : WithTop ℚ} {l : List (WithTop ℚ)} (h : x ∈ l) :
    minD l ≤ x := by
  induction l with
  | nil => cases h
  | cons a t ih =>
    rw [minD_cons]
    rcases List.mem_cons.mp h with rfl | h2
    · exact min_le_left _ _
    · exact le_trans (min_le_right _ _) (ih h2)

theorem le_minD {b : WithTop ℚ} {l : List (WithTop ℚ)} (h : ∀ x ∈ l, b ≤ x) :
    b ≤ minD l := by
  induction l with
  | nil => exact le_top
  | cons a t ih =>
    rw [minD_cons]
    exact le_min (h a (List.mem_cons_self a t))
      (ih (fun x hx => h x (List.mem_cons_of_mem a hx)))

/-- The extended minimum of a mapped list of exact distances: `⊤` only
for the empty list, otherwise attained by some element that is minimal. -/
theorem minD_spec {α : Type} (f : α → ℚ) :
    ∀ l : List α,
      (l = [] ∧ minD (l.map (fun x => ((f x : ℚ) : WithTop ℚ))) = ⊤) ∨
      ∃ a ∈ l, minD (l.map (fun x => ((f x : ℚ) : WithTop ℚ))) = ((f a : ℚ) : WithTop ℚ) ∧
        ∀ b ∈ l, f a ≤ f b
  | [] => Or.inl ⟨rfl, rfl⟩
  | a :: t => by
    rcases minD_spec f t with ⟨rfl, hval⟩ | ⟨m, hm, hval, hmin⟩
    · right
      refine ⟨a, List.mem_cons_self a [], ?_, ?_⟩
      · rw [List.map_cons, minD_cons, List.map_nil, minD_nil, min_eq_left le_top]
      · intro b hb
        rcases List.mem_cons.mp hb with rfl | h2
        · exact le_refl _
        · cases h2
    · right
      by_cases hle : f a ≤ f m
      · refine ⟨a, List.mem_cons_self a t, ?_, ?_⟩
        · rw [List.map_cons, minD_cons, hval, ← WithTop.coe_min, min_eq_left hle]
        · intro b hb
          rcases List.mem_cons.mp hb with rfl | h2
          · exact le_refl _
          · exact le_trans hle (hmin b h2)
      · push_neg at hle
        refine ⟨m, List.mem_cons_of_mem a hm, ?_, ?_⟩
        · rw [List.map_cons, minD_cons, hval, ← WithTop.coe_min, min_eq_right hle.le]
        · intro b hb
          rcases List.mem_cons.mp hb with rfl | h2
          · exact hle.le
          · exact hmin b h2

/-- The nearest-node scan computes the minimum of the node distances
(tempered by the incoming best) and, unless it kept the incoming pair,
reports some node attaining its final value. -/
theorem bestNodeLoop_spec (hav : Coord → Coord → ℚ) (c : Coord) :
    ∀ (nodes : ObjMap Coord) (bn : Option String) (bd : WithTop ℚ),
      (bestNodeLoop hav c nodes bn bd).2 =
        min bd (minD (nodes.map (fun p => ((hav c p.2 : ℚ) : WithTop ℚ)))) ∧
      (((bestNodeLoop hav c nodes bn bd).1 = bn ∧ (bestNodeLoop hav c nodes bn bd).2 = bd) ∨
        ∃ p ∈ nodes, (bestNodeLoop hav c nodes bn bd).1 = some p.1 ∧
          (bestNodeLoop hav c nodes bn bd).2 = ((hav c p.2 : ℚ) : WithTop ℚ))
  | [], bn, bd => by
    constructor
    · rw [List.map_nil, minD_nil, min_eq_left le_top]
      rfl
    · exact Or.inl ⟨rfl, rfl⟩
  | (id, n) :: rest, bn, bd => by
    rcases lt_or_le ((hav c n : ℚ) : WithTop ℚ) bd with h | h
    · have hstep : bestNodeLoop hav c ((id, n) :: rest) bn bd =
          bestNodeLoop hav c rest (some id) ((hav c n : ℚ) : WithTop ℚ) := by
        rw [bestNodeLoop, if_pos h]
      obtain ⟨ihv, ihp⟩ := bestNodeLoop_spec hav c rest (some id) ((hav c n : ℚ) : WithTop ℚ)
      constructor
      · rw [hstep, ihv, List.map_cons, minD_cons, ← min_assoc, min_eq_right h.le]
      · rcases ihp with ⟨h1, h2⟩ | ⟨p, hp, h1, h2⟩
        · exact Or.inr ⟨(id, n), List.mem_cons_self _ _,
            by rw [hstep]; exact h1, by rw [hstep]; exact h2⟩
        · exact Or.inr ⟨p, List.mem_cons_of_mem _ hp,
            by rw [hstep]; exact h1, by rw [hstep]; exact h2⟩
    · have hstep : bestNodeLoop hav c ((id, n) :: rest) bn bd =
          bestNodeLoop hav c rest bn bd := by
        rw [bestNodeLoop, if_neg (not_lt.mpr h)]
      obtain ⟨ihv, ihp⟩ := bestNodeLoop_spec hav c rest bn bd
      constructor
      · rw [hstep, ihv, List.map_cons, minD_cons, ← min_assoc, min_eq_left h]
      · rcases ihp with ⟨h1, h2⟩ | ⟨p, hp, h1, h2⟩
        · exact Or.inl ⟨by rw [hstep]; exact h1, by rw [hstep]; exact h2⟩
        · exact Or.inr ⟨p, List.mem_cons_of_mem _ hp,
            by rw [hstep]; exact h1, by rw [hstep]; exact h2⟩

/-- The inner edge scan computes the minimum of the row's candidate
distances (tempered by the incoming best) and, unless it kept the
incoming best edge, reports the projection record of some candidate. -/
theorem bestEdgeInner_spec (hav : Coord → Coord → ℚ) (projF : ℚ → ℚ → ℚ → ℚ × ℚ)
    (unprojF : ℚ → ℚ → ℚ → Coord) (c : Coord) (pXY : ℚ × ℚ) (refLat : ℚ)
    (nodes : ObjMap Coord) (a : String) :
    ∀ (bs : List String) (be : Option BestEdge),
      distOf (bestEdgeInner hav projF unprojF c pXY refLat nodes a bs be) =
        min (distOf be)
          (minD ((rowCands nodes a bs).map
            (fun e => ((candDistP hav projF unprojF c pXY refLat e : ℚ) : WithTop ℚ)))) ∧
      (bestEdgeInner hav projF unprojF c pXY refLat nodes a bs be = be ∨
        ∃ e ∈ rowCands nodes a bs,
          bestEdgeInner hav projF unprojF c pXY refLat nodes a bs be =
            some ⟨e.1, e.2.1, projOf projF unprojF pXY refLat e.2.2.1 e.2.2.2,
              candDistP hav projF unprojF c pXY refLat e⟩)
  | [], be => by
    constructor
    · rw [show rowCands nodes a [] = [] from rfl, List.map_nil, minD_nil,
        min_eq_left le_top]
      rfl
    · exact Or.inl rfl
  | b :: rest, be => by
    by_cases hba : b ≤ a
    · have hstep : bestEdgeInner hav projF unprojF c pXY refLat nodes a (b :: rest) be =
          bestEdgeInner hav projF unprojF c pXY refLat nodes a rest be := by
        rw [bestEdgeInner, if_pos hba]
      have hrc : rowCands nodes a (b :: rest) = rowCands nodes a rest := by
        simp only [rowCands, List.filterMap_cons, if_pos hba]
      obtain ⟨ihv, ihp⟩ := bestEdgeInner_spec hav projF unprojF c pXY refLat nodes a rest be
      rw [hstep, hrc]
      exact ⟨ihv, ihp⟩
    · cases hna : objLookup nodes a with
      | none =>
        have hstep : bestEdgeInner hav projF unprojF c pXY refLat nodes a (b :: rest) be =
            bestEdgeInner hav projF unprojF c pXY refLat nodes a rest be := by
          rw [bestEdgeInner, if_neg hba]
          simp only [hna]
        have hrc : rowCands nodes a (b :: rest) = rowCands nodes a rest := by
          simp only [rowCands, List.filterMap_cons, if_neg hba, hna]
        obtain ⟨ihv, ihp⟩ := bestEdgeInner_spec hav projF unprojF c pXY refLat nodes a rest be
        rw [hstep, hrc]
        exact ⟨ihv, ihp⟩
      | some na =>
        cases hnb : objLookup nodes b with
        | none =>
          have hstep : bestEdgeInner hav projF unprojF c pXY refLat nodes a (b :: rest) be =
              bestEdgeInner hav projF unprojF c pXY refLat nodes a rest be := by
            rw [bestEdgeInner, if_neg hba]
            simp only [hna, hnb]
          have hrc : rowCands nodes a (b :: rest) = rowCands nodes a rest := by
            simp only [rowCands, List.filterMap_cons, if_neg hba, hna, hnb]
          obtain ⟨ihv, ihp⟩ := bestEdgeInner_spec hav projF unprojF c pXY refLat nodes a rest be
          rw [hstep, hrc]
          exact ⟨ihv, ihp⟩
        | some nb =>
          have hrc : rowCands nodes a (b :: rest) =
              (a, b, na, nb) :: rowCands nodes a rest := by
            simp only [rowCands, List.filterMap_cons, if_neg hba, hna, hnb]
          cases be with
          | none =>
            have hstep : bestEdgeInner hav projF unprojF c pXY refLat nodes a (b :: rest)
                  none =
                bestEdgeInner hav projF unprojF c pXY refLat nodes a rest
                  (some ⟨a, b, projOf projF unprojF pXY refLat na nb,
                    candDistP hav projF unprojF c pXY refLat (a, b, na, nb)⟩) := by
              rw [bestEdgeInner, if_neg hba]
              simp only [hna, hnb]
              exact if_pos trivial
            obtain ⟨ihv, ihp⟩ := bestEdgeInner_spec hav projF unprojF c pXY refLat nodes a rest
              (some ⟨a, b, projOf projF unprojF pXY refLat na nb,
                candDistP hav projF unprojF c pXY refLat (a, b, na, nb)⟩)
            constructor
            · rw [hstep, ihv, hrc, List.map_cons, minD_cons]
              simp only [distOf]
              rw [min_eq_right le_top]
            · rcases ihp with heq | ⟨e2, he2, heq⟩
              · right
                exact ⟨(a, b, na, nb), by rw [hrc]; exact List.mem_cons_self _ _,
                  by rw [hstep]; exact heq⟩
              · right
                exact ⟨e2, by rw [hrc]; exact List.mem_cons_of_mem _ he2,
                  by rw [hstep]; exact heq⟩
          | some e =>
            by_cases hd : candDistP hav projF unprojF c pXY refLat (a, b, na, nb) < e.dist
            · have hstep : bestEdgeInner hav projF unprojF c pXY refLat nodes a (b :: rest)
                    (some e) =
                  bestEdgeInner hav projF unprojF c pXY refLat nodes a rest
                    (some ⟨a, b, projOf projF unprojF pXY refLat na nb,
                      candDistP hav projF unprojF c pXY refLat (a, b, na, nb)⟩) := by
                rw [bestEdgeInner, if_neg hba]
                simp only [hna, hnb]
                exact if_pos (decide_eq_true hd)
              obtain ⟨ihv, ihp⟩ := bestEdgeInner_spec hav projF unprojF c pXY refLat nodes a
                rest (some ⟨a, b, projOf projF unprojF pXY refLat na nb,
                  candDistP hav projF unprojF c pXY refLat (a, b, na, nb)⟩)
              constructor
              · rw [hstep, ihv, hrc, List.map_cons, minD_cons]
                simp only [distOf]
                rw [← min_assoc, min_eq_right (WithTop.coe_le_coe.mpr hd.le)]
              · rcases ihp with heq | ⟨e2, he2, heq⟩
                · right
                  exact ⟨(a, b, na, nb), by rw [hrc]; exact List.mem_cons_self _ _,
                    by rw [hstep]; exact heq⟩
                · right
                  exact ⟨e2, by rw [hrc]; exact List.mem_cons_of_mem _ he2,
                    by rw [hstep]; exact heq⟩
            · have hstep : bestEdgeInner hav projF unprojF c pXY refLat nodes a (b :: rest)
                    (some e) =
                  bestEdgeInner hav projF unprojF c pXY refLat nodes a rest (some e) := by
                rw [bestEdgeInner, if_neg hba]
                simp only [hna, hnb]
                exact if_neg (fun hcontra => hd (of_decide_eq_true hcontra))
              obtain ⟨ihv, ihp⟩ := bestEdgeInner_spec hav projF unprojF c pXY refLat nodes a
                rest (some e)
              constructor
              · rw [hstep, ihv, hrc, List.map_cons, minD_cons]
                simp only [distOf]
                rw [← min_assoc, min_eq_left (WithTop.coe_le_coe.mpr (not_lt.mp hd))]
              · rcases ihp with heq | ⟨e2, he2, heq⟩
                · exact Or.inl (by rw [hstep]; exact heq)
                · right
                  exact ⟨e2, by rw [hrc]; exact List.mem_cons_of_mem _ he2,
                    by rw [hstep]; exact heq⟩

/-- The outer edge scan computes the minimum of all candidate distances
(tempered by the incoming best) and, unless it kept the incoming best
edge, reports the projection record of some candidate. -/
theorem bestEdgeOuter_spec (hav : Coord → Coord → ℚ) (projF : ℚ → ℚ → ℚ → ℚ × ℚ)
    (unprojF : ℚ → ℚ → ℚ → Coord) (c : Coord) (pXY : ℚ × ℚ) (refLat : ℚ)
    (nodes : ObjMap Coord) :
    ∀ (edges : Graph) (be : Option BestEdge),
      distOf (bestEdgeOuter hav projF unprojF c pXY refLat nodes edges be) =
        min (distOf be)
          (minD ((edgeCands nodes edges).map
            (fun e => ((candDistP hav projF unprojF c pXY refLat e : ℚ) : WithTop ℚ)))) ∧
      (bestEdgeOuter hav projF unprojF c pXY refLat nodes edges be = be ∨
        ∃ e ∈ edgeCands nodes edges,
          bestEdgeOuter hav projF unprojF c pXY refLat nodes edges be =
            some ⟨e.1, e.2.1, projOf projF unprojF pXY refLat e.2.2.1 e.2.2.2,
              candDistP hav projF unprojF c pXY refLat e⟩)
  | [], be => by
    constructor
    · rw [show edgeCands nodes [] = [] from rfl, List.map_nil, minD_nil,
        min_eq_left le_top]
      rfl
    · exact Or.inl rfl
  | (a, list) :: rest, be => by
    have hstep : bestEdgeOuter hav projF unprojF c pXY refLat nodes ((a, list) :: rest) be =
        bestEdgeOuter hav projF unprojF c pXY refLat nodes rest
          (bestEdgeInner hav projF unprojF c pXY refLat nodes a (objKeys list) be) := by
      rw [bestEdgeOuter]
    have hec : edgeCands nodes ((a, list) :: rest) =
        rowCands nodes a (objKeys list) ++ edgeCands nodes rest := by
      rw [edgeCands, List.flatMap_cons]
      rfl
    obtain ⟨iv, ip⟩ := bestEdgeInner_spec hav projF unprojF c pXY refLat nodes a
      (objKeys list) be
    obtain ⟨ov, op⟩ := bestEdgeOuter_spec hav projF unprojF c pXY refLat nodes rest
      (bestEdgeInner hav projF unprojF c pXY refLat nodes a (objKeys list) be)
    constructor
    · rw [hstep, ov, iv, hec, List.map_append, minD_append, min_assoc]
    · rcases op with heq | ⟨e, he, heq⟩
      · rcases ip with heq2 | ⟨e, he, heq2⟩
        · exact Or.inl (by rw [hstep, heq]; exact heq2)
        · exact Or.inr ⟨e, by rw [hec]; exact List.mem_append_left _ he,
            by rw [hstep, heq]; exact heq2⟩
      · exact Or.inr ⟨e, by rw [hec]; exact List.mem_append_right _ he,
          by rw [hstep]; exact heq⟩

/-- C5: for every query coordinate and non-empty node table, with the
geodesic distance non-negative: the snap returns an edge attachment iff
the minimal candidate-edge distance plus the 0.1 margin is strictly
below the minimal node distance; an attachment carries the fresh id and
the projected coordinate and endpoints of a candidate attaining the
minimal edge distance; otherwise the snap returns an existing node
attaining the minimal node distance; and a coordinate at geodesic
distance zero from a unique node snaps to that node, never to an
edge. -/
theorem snapToGraph_spec (hav : Coord → Coord → ℚ) (projF : ℚ → ℚ → ℚ → ℚ × ℚ)
    (unprojF : ℚ → ℚ → ℚ → Coord) (freshId : String) (c : Coord)
    (nodes : ObjMap Coord) (edges : Graph)
    (hne : nodes ≠ []) (h0 : ∀ p q, 0 ≤ hav p q) :
    ((∃ v, snapToGraph hav projF unprojF freshId c nodes edges = SnapResult.virt v) ↔
      ∃ m : ℚ,
        minD ((edgeCands nodes edges).map
            (fun e => ((candDistP hav projF unprojF c (projF c.lat c.lng c.lat) c.lat e : ℚ) :
              WithTop ℚ))) = ((m : ℚ) : WithTop ℚ) ∧
        ((m + 1 / 10 : ℚ) : WithTop ℚ) <
          minD (nodes.map (fun p => ((hav c p.2 : ℚ) : WithTop ℚ)))) ∧
    (∀ v, snapToGraph hav projF unprojF freshId c nodes edges = SnapResult.virt v →
      v.nodeId = freshId ∧
      ∃ e ∈ edgeCands nodes edges,
        v.a = e.1 ∧ v.b = e.2.1 ∧
        v.coord = projOf projF unprojF (projF c.lat c.lng c.lat) c.lat e.2.2.1 e.2.2.2 ∧
        ((candDistP hav projF unprojF c (projF c.lat c.lng c.lat) c.lat e : ℚ) : WithTop ℚ) =
          minD ((edgeCands nodes edges).map
            (fun e => ((candDistP hav projF unprojF c (projF c.lat c.lng c.lat) c.lat e : ℚ) :
              WithTop ℚ)))) ∧
    ((∀ v, snapToGraph hav projF unprojF freshId c nodes edges ≠ SnapResult.virt v) →
      ∃ nid nc, snapToGraph hav projF unprojF freshId c nodes edges =
          SnapResult.node (some nid) (objLookup nodes nid) ∧
        (nid, nc) ∈ nodes ∧
        ((hav c nc : ℚ) : WithTop ℚ) =
          minD (nodes.map (fun p => ((hav c p.2 : ℚ) : WithTop ℚ)))) ∧
    (∀ xid xc, (xid, xc) ∈ nodes → hav c xc = 0 →
      (∀ p ∈ nodes, p.1 ≠ xid → 0 < hav c p.2) →
      snapToGraph hav projF unprojF freshId c nodes edges =
        SnapResult.node (some xid) (objLookup nodes xid)) := by
  obtain ⟨bnv, bnp⟩ := bestNodeLoop_spec hav c nodes none ⊤
  obtain ⟨bev, bep⟩ := bestEdgeOuter_spec hav projF unprojF c (projF c.lat c.lng c.lat)
    c.lat nodes edges none
  have hbn2 : (bestNodeLoop hav c nodes none ⊤).2 =
      minD (nodes.map (fun p => ((hav c p.2 : ℚ) : WithTop ℚ))) := by
    rw [bnv, min_eq_right le_top]
  have hdtop : distOf (none : Option BestEdge) = ⊤ := rfl
  have hbev : distOf (bestEdgeOuter hav projF unprojF c (projF c.lat c.lng c.lat) c.lat
        nodes edges none) =
      minD ((edgeCands nodes edges).map
        (fun e => ((candDistP hav projF unprojF c (projF c.lat c.lng c.lat) c.lat e : ℚ) :
          WithTop ℚ))) := by
    rw [bev, hdtop, min_eq_right le_top]
  refine ⟨?_, ?_, ?_, ?_⟩
  · constructor
    · rintro ⟨v, hv⟩
      simp only [snapToGraph] at hv
      cases hbeq : bestEdgeOuter hav projF unprojF c (projF c.lat c.lng c.lat) c.lat
          nodes edges none with
      | none =>
        simp only [hbeq] at hv
        exact absurd hv (by simp)
      | some e =>
        simp only [hbeq] at hv
        by_cases hc : ((e.dist + 1 / 10 : ℚ) : WithTop ℚ) <
            (bestNodeLoop hav c nodes none ⊤).2
        · refine ⟨e.dist, ?_, ?_⟩
          · rw [← hbev, hbeq]
            rfl
          · rw [← hbn2]
            exact hc
        · rw [if_neg hc] at hv
          exact absurd hv (by simp)
    · rintro ⟨m, hm, hlt⟩
      cases hbeq : bestEdgeOuter hav projF unprojF c (projF c.lat c.lng c.lat) c.lat
          nodes edges none with
      | none =>
        rw [hbeq, hdtop] at hbev
        rw [← hbev] at hm
        exact absurd hm.symm WithTop.coe_ne_top
      | some e =>
        have hed : e.dist = m := by
          have h1 : ((e.dist : ℚ) : WithTop ℚ) = ((m : ℚ) : WithTop ℚ) := by
            rw [← hm, ← hbev, hbeq]
            rfl
          exact_mod_cast h1
        have hc : ((e.dist + 1 / 10 : ℚ) : WithTop ℚ) <
            (bestNodeLoop hav c nodes none ⊤).2 := by
          rw [hed, hbn2]
          exact hlt
        refine ⟨⟨freshId, e.coord, e.a, e.b⟩, ?_⟩
        simp only [snapToGraph, hbeq]
        rw [if_pos hc]
  · intro v hv
    simp only [snapToGraph] at hv
    cases hbeq : bestEdgeOuter hav projF unprojF c (projF c.lat c.lng c.lat) c.lat
        nodes edges none with
    | none =>
      simp only [hbeq] at hv
      exact absurd hv (by simp)
    | some e =>
      simp only [hbeq] at hv
      by_cases hc : ((e.dist + 1 / 10 : ℚ) : WithTop ℚ) <
          (bestNodeLoop hav c nodes none ⊤).2
      · rw [if_pos hc] at hv
        injection hv with hv2
        subst hv2
        rcases bep with heq | ⟨e2, he2, heq⟩
        · rw [hbeq] at heq
          exact absurd heq (by simp)
        · rw [hbeq] at heq
          injection heq with he3
          refine ⟨rfl, e2, he2, ?_, ?_, ?_, ?_⟩
          · rw [he3]
          · rw [he3]
          · rw [he3]
          · rw [← hbev, hbeq, he3]
            rfl
      · rw [if_neg hc] at hv
        exact absurd hv (by simp)
  · intro hnv
    rcases minD_spec (fun p => hav c p.2) nodes with ⟨hnil, _⟩ | ⟨p, hp, hval, hminp⟩
    · exact absurd hnil hne
    · rcases bnp with ⟨h1, h2⟩ | ⟨q, hq, h1, h2⟩
      · exfalso
        rw [hbn2] at h2
        rw [hval] at h2
        exact WithTop.coe_ne_top h2
      · refine ⟨q.1, q.2, ?_, by simpa using hq, ?_⟩
        · simp only [snapToGraph]
          cases hbeq : bestEdgeOuter hav projF unprojF c (projF c.lat c.lng c.lat) c.lat
              nodes edges none with
          | none =>
            simp only [hbeq, h1, Option.some_bind]
          | some e =>
            by_cases hc : ((e.dist + 1 / 10 : ℚ) : WithTop ℚ) <
                (bestNodeLoop hav c nodes none ⊤).2
            · exfalso
              exact hnv ⟨freshId, e.coord, e.a, e.b⟩
                (by simp only [snapToGraph, hbeq]; rw [if_pos hc])
            · simp only [hbeq]
              rw [if_neg hc]
              simp only [h1, Option.some_bind]
        · rw [← hbn2]
          exact h2.symm
  · intro xid xc hmem h0x huniq
    have hminzero : minD (nodes.map (fun p => ((hav c p.2 : ℚ) : WithTop ℚ))) =
        ((0 : ℚ) : WithTop ℚ) := by
      apply le_antisymm
      · have hmm : ((hav c xc : ℚ) : WithTop ℚ) ∈
            nodes.map (fun p => ((hav c p.2 : ℚ) : WithTop ℚ)) :=
          List.mem_map_of_mem _ hmem
        have hle := minD_le_of_mem hmm
        rwa [h0x] at hle
      · apply le_minD
        intro x hx
        obtain ⟨p, hp, rfl⟩ := List.mem_map.mp hx
        exact WithTop.coe_le_coe.mpr (h0 c p.2)
    rcases bnp with ⟨h1, h2⟩ | ⟨q, hq, h1, h2⟩
    · exfalso
      rw [hbn2, hminzero] at h2
      exact WithTop.coe_ne_top h2
    · have hq2 : hav c q.2 = 0 := by
        have h3 : ((hav c q.2 : ℚ) : WithTop ℚ) = ((0 : ℚ) : WithTop ℚ) := by
          rw [← h2, hbn2, hminzero]
        exact_mod_cast h3
      have hqid : q.1 = xid := by
        by_contra hne2
        exact absurd hq2 (ne_of_gt (huniq q hq hne2))
      simp only [snapToGraph]
      cases hbeq : bestEdgeOuter hav projF unprojF c (projF c.lat c.lng c.lat) c.lat
          nodes edges none with
      | none =>
        simp only [hbeq, h1, hqid, Option.some_bind]
      | some e =>
        have hed0 : 0 ≤ e.dist := by
          rcases bep with heq | ⟨e2, he2, heq⟩
          · rw [hbeq] at heq
            exact absurd heq (by simp)
          · rw [hbeq] at heq
            injection heq with he3
            rw [he3]
            exact h0 c _
        have hnc : ¬ (((e.dist + 1 / 10 : ℚ) : WithTop ℚ) <
            (bestNodeLoop hav c nodes none ⊤).2) := by
          rw [hbn2, hminzero, not_lt]
          exact WithTop.coe_le_coe.mpr (by linarith)
        simp only [hbeq]
        rw [if_neg hnc]
        simp only [h1, hqid, Option.some_bind]

/-- C5 witness: the concrete node table `A = (0,0), B = (0,2)` with the
single edge `A–B` and query coordinate `(1/8, 0)`; the theorem's four
parts hold there with its hypotheses discharged (the node table is
non-empty, and the squared-distance stand-in is non-negative). -/
theorem snapToGraph_spec_witness :
    ((∃ v, snapToGraph havSq projId unprojId "VIRTUAL_w" ⟨1 / 8, 0⟩ c9Params.nodes
        c9Params.edges = SnapResult.virt v) ↔
      ∃ m : ℚ,
        minD ((edgeCands c9Params.nodes c9Params.edges).map
            (fun e => ((candDistP havSq projId unprojId ⟨1 / 8, 0⟩
              (projId (⟨1 / 8, 0⟩ : Coord).lat (⟨1 / 8, 0⟩ : Coord).lng
                (⟨1 / 8, 0⟩ : Coord).lat)
              (⟨1 / 8, 0⟩ : Coord).lat e : ℚ) : WithTop ℚ))) = ((m : ℚ) : WithTop ℚ) ∧
        ((m + 1 / 10 : ℚ) : WithTop ℚ) <
          minD (c9Params.nodes.map
            (fun p => ((havSq ⟨1 / 8, 0⟩ p.2 : ℚ) : WithTop ℚ)))) ∧
    (∀ v, snapToGraph havSq projId unprojId "VIRTUAL_w" ⟨1 / 8, 0⟩ c9Params.nodes
        c9Params.edges = SnapResult.virt v →
      v.nodeId = "VIRTUAL_w" ∧
      ∃ e ∈ edgeCands c9Params.nodes c9Params.edges,
        v.a = e.1 ∧ v.b = e.2.1 ∧
        v.coord = projOf projId unprojId
          (projId (⟨1 / 8, 0⟩ : Coord).lat (⟨1 / 8, 0⟩ : Coord).lng
            (⟨1 / 8, 0⟩ : Coord).lat)
          (⟨1 / 8, 0⟩ : Coord).lat e.2.2.1 e.2.2.2 ∧
        ((candDistP havSq projId unprojId ⟨1 / 8, 0⟩
            (projId (⟨1 / 8, 0⟩ : Coord).lat (⟨1 / 8, 0⟩ : Coord).lng
              (⟨1 / 8, 0⟩ : Coord).lat)
            (⟨1 / 8, 0⟩ : Coord).lat e : ℚ) : WithTop ℚ) =
          minD ((edgeCands c9Params.nodes c9Params.edges).map
            (fun e => ((candDistP havSq projId unprojId ⟨1 / 8, 0⟩
              (projId (⟨1 / 8, 0⟩ : Coord).lat (⟨1 / 8, 0⟩ : Coord).lng
                (⟨1 / 8, 0⟩ : Coord).lat)
              (⟨1 / 8, 0⟩ : Coord).lat e : ℚ) : WithTop ℚ)))) ∧
    ((∀ v, snapToGraph havSq projId unprojId "VIRTUAL_w" ⟨1 / 8, 0⟩ c9Params.nodes
        c9Params.edges ≠ SnapResult.virt v) →
      ∃ nid nc, snapToGraph havSq projId unprojId "VIRTUAL_w" ⟨1 / 8, 0⟩ c9Params.nodes
          c9Params.edges = SnapResult.node (some nid) (objLookup c9Params.nodes nid) ∧
        (nid, nc) ∈ c9Params.nodes ∧
        ((havSq ⟨1 / 8, 0⟩ nc : ℚ) : WithTop ℚ) =
          minD (c9Params.nodes.map
            (fun p => ((havSq ⟨1 / 8, 0⟩ p.2 : ℚ) : WithTop ℚ)))) ∧
    (∀ xid xc, (xid, xc) ∈ c9Params.nodes → havSq ⟨1 / 8, 0⟩ xc = 0 →
      (∀ p ∈ c9Params.nodes, p.1 ≠ xid → 0 < havSq ⟨1 / 8, 0⟩ p.2) →
      snapToGraph havSq projId unprojId "VIRTUAL_w" ⟨1 / 8, 0⟩ c9Params.nodes
        c9Params.edges = SnapResult.node (some xid) (objLookup c9Params.nodes xid)) :=
  snapToGraph_spec havSq projId unprojId "VIRTUAL_w" ⟨1 / 8, 0⟩ c9Params.nodes
    c9Params.edges (by simp [c9Params])
    (fun p q => add_nonneg (mul_self_nonneg _) (mul_self_nonneg _))

end Gps
